import Mathlib

/-!
Verification development for the science-calendar extraction pipeline
(`src/main.py`).  The Python source is shallowly embedded below: pure
helper functions become Lean functions on `List Char` / `String`,
machine integers become `Nat`, pixel brightness means become `Rat`
(exact arithmetic standing in for the float means computed by numpy),
and the external OCR / date-parsing capabilities become function
parameters.  Character classes (`\d`, `\s`, `\w`) are modelled over
their ASCII meaning, which covers every character the embedded
patterns can accept.
-/

namespace SciCal

/-! ### Python string primitives -/

/-- Python `\s` / `str.strip()` whitespace (ASCII part: space, tab,
newline, carriage return, vertical tab, form feed). -/
def pyIsSpace (c : Char) : Bool :=
  c = ' ' || c = '\t' || c = '\n' || c = '\r' || c = '\x0b' || c = '\x0c'

/-- Python regex `\d` (ASCII digits). -/
def isDig (c : Char) : Bool :=
  48 ≤ c.toNat && c.toNat ≤ 57

/-- Python `str.lstrip` with a character predicate. -/
def lstripP (p : Char → Bool) (l : List Char) : List Char :=
  l.dropWhile p

/-- Python `str.rstrip` with a character predicate. -/
def rstripP (p : Char → Bool) (l : List Char) : List Char :=
  (l.reverse.dropWhile p).reverse

/-- Python `str.strip` with a character predicate. -/
def stripP (p : Char → Bool) (l : List Char) : List Char :=
  rstripP p (lstripP p l)

/-- Python `str.strip()` (default whitespace). -/
def pystrip (l : List Char) : List Char :=
  stripP pyIsSpace l

/-- Python `str.strip(chars)`: strip any of the given characters from
both ends. -/
def stripSet (s : List Char) (l : List Char) : List Char :=
  stripP (fun c => s.contains c) l

/-- Worker for `splitlinesPy`; `cur` holds the current line reversed. -/
def splitlinesGo : List Char → List Char → List (List Char)
  | cur, [] => if cur = [] then [] else [cur.reverse]
  | cur, '\r' :: '\n' :: rest => cur.reverse :: splitlinesGo [] rest
  | cur, '\r' :: rest => cur.reverse :: splitlinesGo [] rest
  | cur, '\n' :: rest => cur.reverse :: splitlinesGo [] rest
  | cur, c :: rest => splitlinesGo (c :: cur) rest

/-- Python `str.splitlines()` restricted to the `\n`, `\r`, `\r\n`
terminators (the only ones arising in the embedded texts). -/
def splitlinesPy (l : List Char) : List (List Char) :=
  splitlinesGo [] l

/-- Worker for `collapseWs`: the flag records whether the previous
input character was whitespace (i.e. we are inside a run that has
already emitted its single space). -/
def collapseGo : Bool → List Char → List Char
  | _, [] => []
  | false, c :: r =>
    if pyIsSpace c then ' ' :: collapseGo true r else c :: collapseGo false r
  | true, c :: r =>
    if pyIsSpace c then collapseGo true r else c :: collapseGo false r

/-- Python `re.sub(r"\s+", " ", s)`: every maximal whitespace run is
replaced by a single space. -/
def collapseWs (l : List Char) : List Char :=
  collapseGo false l

/-! ### Decimal rendering (Python `str(n)` and `%02d`) -/

/-- The ASCII digit character of `n` (meaningful for `n < 10`). -/
def digitChar (n : ℕ) : Char :=
  Char.ofNat (48 + n)

/-- Worker for `toDec` with explicit fuel (structural recursion, so
that the kernel can evaluate it); `n < fuel` always holds at use
sites. -/
def toDecAux : ℕ → ℕ → List Char
  | 0, _ => []
  | f + 1, n =>
    if n < 10 then [digitChar n]
    else toDecAux f (n / 10) ++ [digitChar (n % 10)]

/-- Decimal rendering of a natural number, as Python `str` produces
for non-negative ints. -/
def toDec (n : ℕ) : List Char :=
  toDecAux (n + 1) n

/-- Python `f"{n:02d}"` for a non-negative int. -/
def pad2 (n : ℕ) : List Char :=
  if n < 10 then '0' :: toDec n else toDec n

/-- The date string `f"{y}-{m:02d}-{d:02d}"` built by the grid parser;
also `datetime.strftime("%Y-%m-%d")` for years with at least four
digits (the only years the pipeline produces). -/
def dateStr (y m d : ℕ) : String :=
  (toDec y ++ '-' :: pad2 m ++ '-' :: pad2 d).asString

/-! ### The event record (`id` is a fresh UUID drawn from an external
randomness source and is not part of any claim, so it is omitted from
the embedding). -/

structure PyEvent where
  title : String
  date : String
  end_date : String
  description : String
  location : String
deriving DecidableEq, Inhabited, Repr

/-! ### `_days_in_month` (src/main.py lines 250-253) -/

def days_in_month (month year : ℕ) : ℕ :=
  if month = 2 then
    if year % 4 = 0 ∧ (year % 100 ≠ 0 ∨ year % 400 = 0) then 29 else 28
  else
    [31, 28, 31, 30, 31, 30, 31, 31, 30, 31, 30, 31].getD (month - 1) 0

/-! ### Column boundaries of `_extract_calendar_grid`
(src/main.py lines 355-360).  Python `int(W * 0.025)` and
`int(W * 0.975)` are modelled with exact real arithmetic as
`⌊W/40⌋` and `⌊39·W/40⌋`. -/

/-- `int(W * 0.025)`. -/
def pctLo (W : ℕ) : ℕ := W / 40

/-- `int(W * 0.975)`. -/
def pctHi (W : ℕ) : ℕ := 39 * W / 40

/-- The per-row column boundary list `xs` of `_extract_calendar_grid`:
`[int(W*0.025)] + separators + [int(W*0.975)]` when exactly 5
separators were detected, otherwise 7 equally spaced positions of
step `(int(W*0.975) - int(W*0.025)) // 6`. -/
def colBoundaries (W : ℕ) (separators : List ℕ) : List ℕ :=
  if separators.length = 5 then
    pctLo W :: separators ++ [pctHi W]
  else
    (List.range 7).map (fun i => pctLo W + i * ((pctHi W - pctLo W) / 6))

/-! ### `_parse_month_text` (src/main.py lines 290-329) -/

/-- `int(group)` for a group of digit characters. -/
def toNatDigits (l : List Char) : ℕ :=
  l.foldl (fun a c => 10 * a + (c.toNat - 48)) 0

/-- The weekday-abbreviation character class `[LMJVSDlji]` of
`_DAY_LINE`. -/
def wdClass : List Char := ['L', 'M', 'J', 'V', 'S', 'D', 'l', 'j', 'i']

/-- `_DAY_LINE.match(line)` for
`_DAY_LINE = re.compile(r'^(\d{1,2})\s+[LMJVSDlji]{1,2}[\.\s]+(.*)')`,
returning `(int(group 1), group 2)`.  Each bounded repetition of the
pattern is followed by a character class disjoint from it, so the
regex engine's greedy backtracking is equivalent to taking each
maximal run and checking its length. -/
def dayLineMatch (l : List Char) : Option (ℕ × List Char) :=
  let ds := l.takeWhile isDig
  if 1 ≤ ds.length ∧ ds.length ≤ 2 then
    let r1 := l.drop ds.length
    let ws := r1.takeWhile pyIsSpace
    if 1 ≤ ws.length then
      let r2 := r1.drop ws.length
      let cs := r2.takeWhile (fun c => wdClass.contains c)
      if 1 ≤ cs.length ∧ cs.length ≤ 2 then
        let r3 := r2.drop cs.length
        let ps := r3.takeWhile (fun c => c = '.' || pyIsSpace c)
        if 1 ≤ ps.length then some (toNatDigits ds, r3.drop ps.length)
        else none
      else none
    else none
  else none

/-- One attempt of `_HIST_YEAR = re.compile(r'\((\d{4})\)\s*$')` at the
current position: `(dddd)` followed by nothing but whitespace. -/
def histHere : List Char → Option (List Char)
  | '(' :: d1 :: d2 :: d3 :: d4 :: ')' :: tail =>
    if isDig d1 && isDig d2 && isDig d3 && isDig d4 && tail.all pyIsSpace then
      some [d1, d2, d3, d4]
    else none
  | _ => none

/-- `_HIST_YEAR.search(desc)`: the leftmost (and, the pattern being
end-anchored, only) match, returned as `(text before the match,
captured digits)`.  `_HIST_YEAR.sub("", desc)` is then exactly the
first component, since the match extends to the end of the string. -/
def histSearch : List Char → Option (List Char × List Char)
  | [] => none
  | c :: rest =>
    match histHere (c :: rest) with
    | some ys => some ([], ys)
    | none => (histSearch rest).map (fun pr => (c :: pr.1, pr.2))

/-- The character set of `title.strip(" ()–—")` in the flush. -/
def flushStrip : List Char := [' ', '(', ')', '–', '—']

/-- The `flush()` closure of `_parse_month_text`, as a function of the
pending state: emits at most one event. -/
def flushEv (year month : ℕ) : Option ℕ → List (List Char) → Option PyEvent
  | none, _ => none
  | some d, descs =>
    let desc := List.intercalate [' '] descs
    let hist := histSearch desc
    let pre := match hist with | some pr => pr.1 | none => desc
    let title := (collapseWs (stripSet flushStrip pre)).take 140
    if 6 ≤ title.length then
      some { title := title.asString
             date := dateStr year month d
             end_date := ""
             description :=
               match hist with
               | some pr => (String.mk ('A' :: 'n' :: ':' :: ' ' :: pr.2))
               | none => ""
             location := "" }
    else none

/-- The loop state of `_parse_month_text` (`current_day`,
`current_desc`, and the events emitted so far). -/
structure MState where
  day : Option ℕ
  descs : List (List Char)
  events : List PyEvent
deriving DecidableEq, Repr

/-- One iteration of the `for line in text.splitlines()` loop of
`_parse_month_text`. -/
def monthStep (month year : ℕ) (s : MState) (rawLine : List Char) : MState :=
  let line := pystrip rawLine
  match dayLineMatch line with
  | some dr =>
    if 1 ≤ dr.1 ∧ dr.1 ≤ days_in_month month year then
      { day := some dr.1
        descs := [pystrip dr.2]
        events := s.events ++ (flushEv year month s.day s.descs).toList }
    else if s.day ≠ none ∧ line ≠ [] then
      { s with descs := s.descs ++ [line] }
    else s
  | none =>
    if s.day ≠ none ∧ line ≠ [] then
      { s with descs := s.descs ++ [line] }
    else s

/-- `_parse_month_text(text, month_num, year)`. -/
def parse_month_text (text : String) (month year : ℕ) : List PyEvent :=
  let fin := (splitlinesPy text.data).foldl (monthStep month year) ⟨none, [], []⟩
  fin.events ++ (flushEv year month fin.day fin.descs).toList

/-! ### The month parser as described by the specification: a tagged
line classifier feeding a record accumulator, then a per-record flush.
These definitions follow the words of claim C1 (and its amendment),
not the source, and exist to be compared with `parse_month_text`. -/

/-- A line of a month column, as the spec classifies it. -/
inductive LineKind where
  | dayLine (d : ℕ) (desc : List Char)
  | plain (l : List Char)
  | blank
deriving DecidableEq, Repr

/-- Spec classifier: a trimmed line matching `<d> <wd> <desc>` with
`d` within `[1, days_in_month]` is a day-line; otherwise the trimmed
line is plain text (or blank). -/
def classifyLine (month year : ℕ) (rawLine : List Char) : LineKind :=
  let line := pystrip rawLine
  match dayLineMatch line with
  | some dr =>
    if 1 ≤ dr.1 ∧ dr.1 ≤ days_in_month month year then
      .dayLine dr.1 (pystrip dr.2)
    else if line = [] then .blank else .plain line
  | none => if line = [] then .blank else .plain line

/-- Spec record accumulator: a day-line starts a new record (releasing
the pending one), a plain line extends the pending record and is
dropped when none is pending, and the final pending record is released
at end of input. -/
def specRecordsGo (pending : Option (ℕ × List (List Char))) :
    List LineKind → List (ℕ × List (List Char))
  | [] => pending.toList
  | .dayLine d desc :: rest =>
    pending.toList ++ specRecordsGo (some (d, [desc])) rest
  | .plain l :: rest =>
    match pending with
    | some pr => specRecordsGo (some (pr.1, pr.2 ++ [l])) rest
    | none => specRecordsGo none rest
  | .blank :: rest => specRecordsGo pending rest

/-- The spec's reading of the trailing historical-year annotation: the
description, ignoring trailing whitespace, ends in a parenthesized
4-digit token, which is removed.  (Formulated from the end of the
string, unlike `histSearch` which scans from the left.) -/
def trailingParenYear (desc : List Char) : Option (List Char × List Char) :=
  match (rstripP pyIsSpace desc).reverse with
  | ')' :: d4 :: d3 :: d2 :: d1 :: '(' :: restRev =>
    if isDig d1 && isDig d2 && isDig d3 && isDig d4 then
      some (restRev.reverse, [d1, d2, d3, d4])
    else none
  | _ => none

/-- Spec flush, as amended: join with single spaces, remove a trailing
parenthesized 4-digit token into the description, strip surrounding
spaces / parentheses / dashes, collapse internal whitespace, truncate
to 140 characters, and emit exactly when the title has length ≥ 6. -/
def specFlush (year month : ℕ) (r : ℕ × List (List Char)) : Option PyEvent :=
  let desc := List.intercalate [' '] r.2
  let hist := trailingParenYear desc
  let pre := match hist with | some pr => pr.1 | none => desc
  let title := (collapseWs (stripSet flushStrip pre)).take 140
  if 6 ≤ title.length then
    some { title := title.asString
           date := dateStr year month r.1
           end_date := ""
           description :=
             match hist with
             | some pr => (String.mk ('A' :: 'n' :: ':' :: ' ' :: pr.2))
             | none => ""
           location := "" }
  else none

/-- Spec flush exactly as claim C1 words it (without the amendment's
stripping of surrounding spaces, parentheses and dashes). -/
def specFlushLiteral (year month : ℕ) (r : ℕ × List (List Char)) :
    Option PyEvent :=
  let desc := List.intercalate [' '] r.2
  let hist := trailingParenYear desc
  let pre := match hist with | some pr => pr.1 | none => desc
  let title := (collapseWs pre).take 140
  if 6 ≤ title.length then
    some { title := title.asString
           date := dateStr year month r.1
           end_date := ""
           description :=
             match hist with
             | some pr => (String.mk ('A' :: 'n' :: ':' :: ' ' :: pr.2))
             | none => ""
           location := "" }
  else none

/-- The month parser as the amended claim C1 describes it. -/
def parse_month_text_spec (text : String) (month year : ℕ) : List PyEvent :=
  let kinds := (splitlinesPy text.data).map (classifyLine month year)
  (specRecordsGo none kinds).filterMap (specFlush year month)

/-- The month parser exactly as claim C1 describes it. -/
def parse_month_text_claimed (text : String) (month year : ℕ) : List PyEvent :=
  let kinds := (splitlinesPy text.data).map (classifyLine month year)
  (specRecordsGo none kinds).filterMap (specFlushLiteral year month)


/-! ### `_detect_year` (src/main.py lines 256-272) -/

/-- The language hints the pipeline passes to the OCR capability. -/
inductive OcrLang where
  | ronEng
  | eng
deriving DecidableEq, Repr

/-- The `try: ... lang="ron+eng" ... except ...: ... lang="eng"` OCR
pattern of `upload_image` (lines 143-146) and `_extract_calendar_grid`
(lines 370-373): one retry with the English-only hint, whose failure
propagates. -/
def ocrWithRetry (rec : OcrLang → Except String String) :
    Except String String :=
  match rec OcrLang.ronEng with
  | .ok t => .ok t
  | .error _ => rec OcrLang.eng

/-- The OCR step of `_detect_year` (lines 261-264): any failure of the
Romanian+English recognition is swallowed (`except Exception`) and the
recognized text taken to be empty — no English retry, no propagation. -/
def detectYearOcrText (rec : OcrLang → Except String String) : String :=
  match rec OcrLang.ronEng with
  | .ok t => t
  | .error _ => ""

/-- Maximal digit runs of a character list.  `cur` holds the current
run reversed.  `re.findall` with a pattern of the form
`(?<!\d)...(?!\d)` inspects exactly these runs. -/
def digitRunsGo (cur : List Char) : List Char → List (List Char)
  | [] => if cur = [] then [] else [cur.reverse]
  | c :: rest =>
    if isDig c then digitRunsGo (c :: cur) rest
    else if cur = [] then digitRunsGo [] rest
    else cur.reverse :: digitRunsGo [] rest

def digitRuns (l : List Char) : List (List Char) :=
  digitRunsGo [] l

/-- One token of `re.findall(r'(?<!\d)(20\d{2})(?!\d)', text)`:
a maximal digit run of length exactly 4 starting `20`. -/
def token20 (r : List Char) : Option ℕ :=
  match r with
  | [c1, c2, c3, c4] =>
    if c1 = '2' ∧ c2 = '0' then some (toNatDigits [c1, c2, c3, c4]) else none
  | _ => none

/-- A token as the spec words it: any 4-digit run bounded by non-digit
characters. -/
def token4 (r : List Char) : Option ℕ :=
  match r with
  | [c1, c2, c3, c4] => some (toNatDigits [c1, c2, c3, c4])
  | _ => none

/-- `standalone` then `candidates` of `_detect_year`: the `20dd`
tokens with values kept only within `[2024, 2035]`. -/
def yearCandidates (l : List Char) : List ℕ :=
  ((digitRuns l).filterMap token20).filter
    (fun y => 2024 ≤ y ∧ y ≤ 2035)

/-- The candidate list as the spec words it: 4-digit tokens bounded by
non-digits, kept only within `[2024, 2035]`. -/
def yearCandidates4 (l : List Char) : List ℕ :=
  ((digitRuns l).filterMap token4).filter
    (fun y => 2024 ≤ y ∧ y ≤ 2035)

/-- First-seen order of distinct values: the key order of a Python
`collections.Counter` built from the list. -/
def firstSeenGo (seen : List ℕ) : List ℕ → List ℕ
  | [] => []
  | x :: rest =>
    if x ∈ seen then firstSeenGo seen rest
    else x :: firstSeenGo (x :: seen) rest

def firstSeen (l : List ℕ) : List ℕ :=
  firstSeenGo [] l

/-- `Counter(l).most_common(1)[0][0]`: the most frequent value, ties
broken towards the first-seen value (`most_common` sorts stably by
descending count over the first-seen key order). -/
def mostCommon (l : List ℕ) (dflt : ℕ) : ℕ :=
  match firstSeen l with
  | [] => dflt
  | k :: ks =>
    ks.foldl (fun best x => if l.count x > l.count best then x else best) k

/-- The year-selection logic of `_detect_year` over the recognized
title-band text (`cy` is `datetime.now().year`). -/
def detect_year_from (text : List Char) (cy : ℕ) : ℕ :=
  let candidates := yearCandidates text
  if candidates = [] then cy + 1 else mostCommon candidates 0

/-- `_detect_year` as a whole: OCR of the title band (errors
swallowed) followed by year selection. -/
def detect_year (rec : OcrLang → Except String String) (cy : ℕ) : ℕ :=
  detect_year_from (detectYearOcrText rec).data cy

/-- Year detection as claim C6 describes every OCR call: retried once
with the English hint, a second failure propagating as an extraction
error.  Exists to be compared with `detect_year`. -/
def detect_year_claimed (rec : OcrLang → Except String String) (cy : ℕ) :
    Except String ℕ :=
  (ocrWithRetry rec).map (fun t => detect_year_from t.data cy)


/-! ### `_detect_col_separators` (src/main.py lines 275-287).
Brightness values are embedded as exact rationals: the per-column
means and the moving average are computed in exact arithmetic in
place of numpy's float64. -/

/-- `arr[y0:y1, :].mean(axis=0)` at column `x` (rows assumed within
the array, as the callers' bands are). -/
def colBright (arr : List (List ℚ)) (y0 y1 x : ℕ) : ℚ :=
  ((List.range' y0 (y1 - y0)).map (fun y => (arr.getD y []).getD x 0)).sum /
    ((y1 : ℚ) - (y0 : ℚ))

/-- `np.convolve(col_bright, np.ones(20)/20, mode="same")` at index
`x`, for a signal of length `W` (zero-extended outside `[0, W)`):
`same[x] = full[x+9]` and `full[n] = Σ_j a[n-j]/20` over the kernel
positions `j ∈ [0, 20)`. -/
def smoothedB (arr : List (List ℚ)) (y0 y1 W x : ℕ) : ℚ :=
  ((List.range 20).map (fun j =>
    if (x + 9 : ℤ) - j ≥ 0 ∧ (x + 9 : ℤ) - j < (W : ℤ) then
      colBright arr y0 y1 ((x + 9 : ℤ) - j).toNat
    else 0)).sum / 20

/-- `smoothed[lo:hi].max()` (0 junk value on the empty slice, where
numpy would raise — see `detect_col_separators_spec`). -/
def windowMaxQ (f : ℕ → ℚ) (lo hi : ℕ) : ℚ :=
  match (List.range' lo (hi - lo)).map f with
  | [] => 0
  | v :: vs => vs.foldl max v

/-- The candidate predicate of the scan loop: `x` ranges over
`range(min_dist, W - min_dist)` and is kept when the smoothed signal
attains the maximum of its window `[max(0, x-min_dist), x+min_dist)`
at `x` and exceeds 200. -/
def sepCandidate (arr : List (List ℚ)) (y0 y1 W : ℕ) (x : ℕ) : Bool :=
  W / 9 ≤ x ∧ x + W / 9 < W ∧
  smoothedB arr y0 y1 W x =
    windowMaxQ (smoothedB arr y0 y1 W) (x - W / 9) (x + W / 9) ∧
  smoothedB arr y0 y1 W x > 200

/-- `_detect_col_separators(arr, y0, y1, W)`.  The Python candidates
are `(x, brightness)` pairs with `brightness = smoothed[x]`, sorted
stably by descending brightness, cut to the top 5, projected to `x`
and sorted ascending; since the brightness component is a function of
`x`, the pairs are dropped and `x` is sorted by its brightness
directly (`insertionSort` is stable, like Python's sort). -/
def detect_col_separators (arr : List (List ℚ)) (y0 y1 W : ℕ) : List ℕ :=
  let sm := smoothedB arr y0 y1 W
  let cands := (List.range W).filter (sepCandidate arr y0 y1 W)
  ((cands.insertionSort (fun a b => sm b ≤ sm a)).take 5).insertionSort (· ≤ ·)


/-! ### `_extract_events` (src/main.py lines 196-235): the poster
date extractor.  The four regex alternatives of `_DATE_RE` are
embedded as matchers over `List Char`; each bounded repetition is
tried greedily (larger counts first), exactly as the backtracking
regex engine does, and `re.search` scans positions left to right,
trying the four alternatives in order at each position. -/

/-- Python regex `\w` (ASCII reading), for `\b` word boundaries. -/
def isWordChar (c : Char) : Bool :=
  c.isAlphanum || c = '_'

/-- `\b` before the match: the previous character (none at the start
of the line) must not be a word character, the matched patterns all
starting with one. -/
def bStart : Option Char → Bool
  | none => true
  | some c => !(isWordChar c)

/-- `\b` after the match: the next character, if any, must not be a
word character, the matched patterns all ending with a digit. -/
def bEnd : List Char → Bool
  | [] => true
  | c :: _ => !(isWordChar c)

/-- The separator class of patterns (1) and (4): dot, dash, slash. -/
def sepChar (c : Char) : Bool :=
  c = '.' || c = '-' || c = '/'

/-- Consume exactly `n` digits. -/
def digitsN (n : ℕ) (l : List Char) : Option (List Char) :=
  if (l.take n).length = n ∧ (l.take n).all isDig then some (l.drop n)
  else none

/-- Consume one separator character. -/
def afterSep : List Char → Option (List Char)
  | c :: r => if sepChar c then some r else none
  | [] => none

/-- Consume `\s+` (maximal munch; every continuation in the embedded
patterns starts with a non-space character). -/
def spaces1 (l : List Char) : Option (List Char) :=
  if 1 ≤ (l.takeWhile pyIsSpace).length then some (l.dropWhile pyIsSpace)
  else none

/-- Check `bEnd` and return the remainder. -/
def endB (r : List Char) : Option (List Char) :=
  if bEnd r then some r else none

/-- Case-insensitive literal word match (the pattern words are
lower-case ASCII). -/
def matchCI : List Char → List Char → Option (List Char)
  | [], rest => some rest
  | _ :: _, [] => none
  | a :: w1, c :: l1 => if c.toLower = a then matchCI w1 l1 else none

/-- The Romanian month names, in the alternation order of the
pattern.  No name is a prefix of another, so at most one can match at
a given position and the first-match rule loses no matches. -/
def monthsRoP : List (List Char) :=
  ["ianuarie", "februarie", "martie", "aprilie", "mai", "iunie", "iulie",
   "august", "septembrie", "octombrie", "noiembrie", "decembrie"].map
    String.data

/-- The English month names, in the alternation order of the pattern
(likewise prefix-free). -/
def monthsEnP : List (List Char) :=
  ["january", "february", "march", "april", "may", "june", "july",
   "august", "september", "october", "november", "december"].map
    String.data

/-- First alternative of a word list matching at this position. -/
def firstAlt : List (List Char) → List Char → Option (List Char)
  | [], _ => none
  | w :: ws, l =>
    match matchCI w l with
    | some r => some r
    | none => firstAlt ws l

/-- One backtracking branch of pattern (1)
`\d{1,2} sep \d{1,2} sep \d{2,4}` (sep one of dot, dash, slash) followed by `\b`. -/
def p1try (n1 n2 n3 : ℕ) (l : List Char) : Option (List Char) :=
  (((((digitsN n1 l).bind afterSep).bind (digitsN n2)).bind
    afterSep).bind (digitsN n3)).bind endB

/-- Pattern (1), numeric day-month-year with dot/dash/slash separators and a 2-4 digit year;
the greedy engine tries larger repetition counts first. -/
def datePat1 (l : List Char) : Option (List Char) :=
  p1try 2 2 4 l <|> p1try 2 2 3 l <|> p1try 2 2 2 l <|>
  p1try 2 1 4 l <|> p1try 2 1 3 l <|> p1try 2 1 2 l <|>
  p1try 1 2 4 l <|> p1try 1 2 3 l <|> p1try 1 2 2 l <|>
  p1try 1 1 4 l <|> p1try 1 1 3 l <|> p1try 1 1 2 l

/-- One backtracking branch of pattern (2)
`\d{1,2}\s+(ro-month)\s+\d{4}` followed by `\b`. -/
def p2try (n1 : ℕ) (l : List Char) : Option (List Char) :=
  (((((digitsN n1 l).bind spaces1).bind (firstAlt monthsRoP)).bind
    spaces1).bind (digitsN 4)).bind endB

/-- Pattern (2), the Romanian month-name form `D <month> Y`. -/
def datePat2 (l : List Char) : Option (List Char) :=
  p2try 2 l <|> p2try 1 l

/-- One backtracking branch of pattern (3)
`(en-month)\s+\d{1,2},?\s+\d{4}` followed by `\b`; `wc` selects
whether the optional comma is consumed. -/
def p3try (n : ℕ) (wc : Bool) (l : List Char) : Option (List Char) :=
  ((((((firstAlt monthsEnP l).bind spaces1).bind (digitsN n)).bind
    (fun r =>
      if wc then
        match r with
        | ',' :: r2 => some r2
        | _ => none
      else some r)).bind spaces1).bind (digitsN 4)).bind endB

/-- Pattern (3), the English month-name form `<month> D, Y`. -/
def datePat3 (l : List Char) : Option (List Char) :=
  p3try 2 true l <|> p3try 2 false l <|> p3try 1 true l <|> p3try 1 false l

/-- One backtracking branch of pattern (4)
`\d{4} sep \d{1,2} sep \d{1,2}` followed by `\b`. -/
def p4try (n2 n3 : ℕ) (l : List Char) : Option (List Char) :=
  (((((digitsN 4 l).bind afterSep).bind (digitsN n2)).bind
    afterSep).bind (digitsN n3)).bind endB

/-- Pattern (4), the ISO-like form year-month-day. -/
def datePat4 (l : List Char) : Option (List Char) :=
  p4try 2 2 l <|> p4try 2 1 l <|> p4try 1 2 l <|> p4try 1 1 l

/-- All four pattern families at one position, in the alternation
order of `_DATE_RE`, guarded by the starting word boundary. -/
def tryPatternsAt (prev : Option Char) (rem : List Char) :
    Option (List Char) :=
  if bStart prev then
    datePat1 rem <|> datePat2 rem <|> datePat3 rem <|> datePat4 rem
  else none

/-- The scan of `_DATE_RE.search`: positions left to right; on the
first success returns `(text before the match, matched text, text
after the match)`. -/
def searchDateGo (before : List Char) (prev : Option Char) :
    List Char → Option (List Char × List Char × List Char)
  | [] =>
    match tryPatternsAt prev [] with
    | some rest => some (before.reverse, [], rest)
    | none => none
  | c :: r2 =>
    match tryPatternsAt prev (c :: r2) with
    | some rest =>
      some (before.reverse,
        (c :: r2).take ((c :: r2).length - rest.length), rest)
    | none => searchDateGo (c :: before) (some c) r2

/-- `_DATE_RE.search(line)`. -/
def searchDate (line : List Char) :
    Option (List Char × List Char × List Char) :=
  searchDateGo [] none line

/-- A parsed calendar date, as the external `dateparser.parse`
capability returns (a real `datetime`). -/
structure PDate where
  y : ℕ
  m : ℕ
  d : ℕ
deriving DecidableEq, Repr

/-- The validity a `datetime` returned by the date-parsing capability
has by construction (4-digit year). -/
def ValidPDate (dt : PDate) : Prop :=
  1 ≤ dt.m ∧ dt.m ≤ 12 ∧ 1 ≤ dt.d ∧ dt.d ≤ days_in_month dt.m dt.y ∧
  1000 ≤ dt.y ∧ dt.y ≤ 9999

/-- The strip set of `remainder = (...).strip(" –—:-|")`. -/
def remStrip : List Char := [' ', '–', '—', ':', '-', '|']

/-- The separator `" — "` of the title join. -/
def emDashSep : List Char := [' ', '—', ' ']

/-- The non-empty trimmed lines `[ln.strip() for ln in text.splitlines()
if ln.strip()]`. -/
def pyLines (text : String) : List (List Char) :=
  ((splitlinesPy text.data).map pystrip).filter (fun l => l ≠ [])

/-- The body of the `for i, line in enumerate(lines)` loop of
`_extract_events` for one line: search, parse via the external
capability, build the title from the rest of the line (and the next
line when it has no date match). -/
def posterEvent (oracle : String → Option PDate) (line : List Char)
    (next? : Option (List Char)) : Option PyEvent :=
  match searchDate line with
  | none => none
  | some (before, matched, after) =>
    match oracle matched.asString with
    | none => none
    | some dt =>
      let remainder := stripSet remStrip (before ++ after)
      let context := (if remainder ≠ [] then [remainder] else []) ++
        (match next? with
         | some nl => if (searchDate nl).isNone then [nl] else []
         | none => [])
      let joined := List.intercalate emDashSep (context.filter (· ≠ []))
      some { title := if joined = [] then "Eveniment" else joined.asString
             date := dateStr dt.y dt.m dt.d
             end_date := ""
             description := ""
             location := "" }

/-- The loop of `_extract_events` (each line sees the following line
as its `lines[i + 1]`). -/
def extractGo (oracle : String → Option PDate) :
    List (List Char) → List PyEvent
  | [] => []
  | l :: rest =>
    (posterEvent oracle l rest.head?).toList ++ extractGo oracle rest

/-- `_extract_events(text)`, parameterized by the date-parsing
capability. -/
def extract_events (oracle : String → Option PDate) (text : String) :
    List PyEvent :=
  extractGo oracle (pyLines text)

/-- A line as the spec classifies it: dated (with its decomposition
around the first date match) or plain. -/
inductive PosterLine where
  | dated (before matched after : List Char)
  | plain
deriving DecidableEq, Repr

/-- Spec classifier for poster lines. -/
def classifyPoster (l : List Char) : PosterLine :=
  match searchDate l with
  | some r => .dated r.1 r.2.1 r.2.2
  | none => .plain

/-- One line of the poster extractor as the claim describes it, for
the line at index `i` of `lines` (so that "the next line" is
`lines[i+1]`): the first date match is located (leftmost position,
the four families tried in precedence order at each position), the
match is handed to the locale-aware parsing capability — an
unparseable match skips the line — and the emitted event joins the
line remainder and an undated next line with an em-dash into the
title, defaulting to "Eveniment", with `end_date`, `description` and
`location` empty. -/
def posterSpecLine (oracle : String → Option PDate)
    (lines : List (List Char)) (i : ℕ) : Option PyEvent :=
  match classifyPoster (lines.getD i []) with
  | .plain => none
  | .dated before matched after =>
    (oracle matched.asString).map (fun dt =>
      let remainder := stripSet remStrip (before ++ after)
      let parts := (if remainder ≠ [] then [remainder] else []) ++
        (if i + 1 < lines.length ∧
            classifyPoster (lines.getD (i + 1) []) = .plain
         then [lines.getD (i + 1) []] else [])
      let joined := List.intercalate emDashSep (parts.filter (· ≠ []))
      { title := if joined = [] then "Eveniment" else joined.asString
        date := dateStr dt.y dt.m dt.d
        end_date := ""
        description := ""
        location := "" })

/-- The poster extractor as the claim describes it. -/
def poster_events_claimed (oracle : String → Option PDate)
    (text : String) : List PyEvent :=
  (List.range (pyLines text).length).filterMap
    (posterSpecLine oracle (pyLines text))

/-! ### `upload_image` (src/main.py lines 113-152): the orchestrator. -/

/-- The acceptance summary
`f"Calendar anual detectat ({W}×{H}px). {len(events)} intrări extrase
din {months_found} luni (an: {detected_year})."`. -/
def mkSummary (W H : ℕ) (events : List PyEvent) : String :=
  "Calendar anual detectat (" ++ (toDec W).asString ++ "×" ++
    (toDec H).asString ++ "px). " ++ (toDec events.length).asString ++
    " intrări extrase din " ++
    (toDec ((events.map (fun e => e.date.take 7)).dedup.length)).asString ++
    " luni (an: " ++ (events.headD default).date.take 4 ++ ")."

/-- The poster branch of `upload_image`: whole-image OCR with the
English retry, then date-pattern extraction; a second OCR failure
propagates. -/
def posterPass (rec : OcrLang → Except String String)
    (oracle : String → Option PDate) :
    Except String (String × List PyEvent) :=
  match ocrWithRetry rec with
  | .ok text => .ok (text, extract_events oracle text)
  | .error e => .error e

/-- The extraction core of `upload_image`: on a landscape image with
numpy available the grid result (passed in, as the grid path's own
OCR is modelled separately) is accepted when it has at least 10
events; otherwise the poster branch runs. -/
def uploadCore (numpyAvail : Bool) (W H : ℕ) (grid : List PyEvent)
    (rec : OcrLang → Except String String)
    (oracle : String → Option PDate) :
    Except String (String × List PyEvent) :=
  if numpyAvail ∧ W > H then
    if 10 ≤ grid.length then .ok (mkSummary W H grid, grid)
    else posterPass rec oracle
  else posterPass rec oracle


/-! ### The data-model invariant checker (spec section 3): a
syntactically valid Gregorian date in `YYYY-MM-DD` form. -/

/-- The numeric value of an ASCII digit character. -/
def charVal (c : Char) : ℕ := c.toNat - 48

/-- Syntactic validity of a date string: ten characters
`YYYY-MM-DD`, all digit positions ASCII digits, month in `[1, 12]`
and day in `[1, days_in_month]` of the standard Gregorian rule. -/
def validDateB (s : String) : Bool :=
  match s.data with
  | [y3, y2, y1, y0, '-', m1, m0, '-', e1, e0] =>
    isDig y3 && isDig y2 && isDig y1 && isDig y0 && isDig m1 && isDig m0 &&
    isDig e1 && isDig e0 &&
    (let mm := 10 * charVal m1 + charVal m0
     let dd := 10 * charVal e1 + charVal e0
     let yy := 1000 * charVal y3 + 100 * charVal y2 + 10 * charVal y1 +
       charVal y0
     decide (1 ≤ mm) && decide (mm ≤ 12) && decide (1 ≤ dd) &&
       decide (dd ≤ days_in_month mm yy))
  | _ => false

end SciCal

namespace SciCal

/-! ## Theorems -/

/-- Claim C8: for every year, `days_in_month` follows the standard
Gregorian month lengths: February has 29 days exactly when the year is
divisible by 4 and (not divisible by 100, or divisible by 400), else
28; the other eleven months follow the fixed 31/30 pattern; and in
particular `days_in_month 2 2024 = 29`, `days_in_month 2 2023 = 28`,
and `days_in_month 4 y = 30` for every `y`. -/
theorem days_in_month_gregorian (year : ℕ) :
    days_in_month 1 year = 31 ∧
    days_in_month 2 year =
      (if year % 4 = 0 ∧ (year % 100 ≠ 0 ∨ year % 400 = 0) then 29 else 28) ∧
    days_in_month 3 year = 31 ∧
    days_in_month 4 year = 30 ∧
    days_in_month 5 year = 31 ∧
    days_in_month 6 year = 30 ∧
    days_in_month 7 year = 31 ∧
    days_in_month 8 year = 31 ∧
    days_in_month 9 year = 30 ∧
    days_in_month 10 year = 31 ∧
    days_in_month 11 year = 30 ∧
    days_in_month 12 year = 31 ∧
    days_in_month 2 2024 = 29 ∧
    days_in_month 2 2023 = 28 :=
  ⟨rfl, rfl, rfl, rfl, rfl, rfl, rfl, rfl, rfl, rfl, rfl, rfl,
    by decide, by decide⟩

/-- Claim C4 counterexample: at image width `W = 16` with no detected
separators, the fallback boundaries are `[0, 2, 4, 6, 8, 10, 12]`,
whose last entry `12` is not `int(W * 0.975) = 15`: the seven
boundaries do not span up to 97.5% of the image width as claimed. -/
theorem colBoundaries_not_spanning :
    colBoundaries 16 [] = [0, 2, 4, 6, 8, 10, 12] ∧
    (colBoundaries 16 []).getLastD 0 ≠ pctHi 16 := by
  decide

/-- Claim C4 (amended): when exactly 5 separators are found the
boundaries are `[int(2.5%W)] + separators + [int(97.5%W)]`; otherwise
the fallback produces 7 boundaries starting at `int(2.5%W)` with all
six columns of equal width `cw = (int(97.5%W) - int(2.5%W)) // 6`, so
the last boundary is `int(2.5%W) + 6·cw`, which is at most
`int(97.5%W)` and falls short of it by fewer than 6 pixels (it need
not equal `int(97.5%W)`). -/
theorem colBoundaries_spec (W : ℕ) (separators : List ℕ) :
    (separators.length = 5 →
      colBoundaries W separators = pctLo W :: separators ++ [pctHi W]) ∧
    (separators.length ≠ 5 →
      colBoundaries W separators =
        [pctLo W, pctLo W + (pctHi W - pctLo W) / 6 * 1,
          pctLo W + (pctHi W - pctLo W) / 6 * 2,
          pctLo W + (pctHi W - pctLo W) / 6 * 3,
          pctLo W + (pctHi W - pctLo W) / 6 * 4,
          pctLo W + (pctHi W - pctLo W) / 6 * 5,
          pctLo W + (pctHi W - pctLo W) / 6 * 6] ∧
      (colBoundaries W separators).getLastD 0 =
        pctLo W + 6 * ((pctHi W - pctLo W) / 6) ∧
      (colBoundaries W separators).getLastD 0 ≤ pctHi W ∧
      pctHi W < (colBoundaries W separators).getLastD 0 + 6) := by
  constructor
  · intro h
    simp [colBoundaries, h]
  · intro h
    have hle : pctLo W ≤ pctHi W := by
      unfold pctLo pctHi
      exact Nat.div_le_div_right (by omega)
    have hdm := Nat.div_add_mod (pctHi W - pctLo W) 6
    have hmod : (pctHi W - pctLo W) % 6 < 6 := Nat.mod_lt _ (by omega)
    refine ⟨?_, ?_, ?_, ?_⟩
    · simp [colBoundaries, h, List.range_succ]
      omega
    · simp [colBoundaries, h, List.range_succ]
    · simp [colBoundaries, h, List.range_succ]
      omega
    · simp [colBoundaries, h, List.range_succ]
      omega

/-- Claim C4 witness: the theorem evaluated on a width-16 image, in
both the 5-separator branch and the fallback branch. -/
theorem colBoundaries_spec_witness :
    colBoundaries 16 [3, 5, 7, 9, 11] = 0 :: [3, 5, 7, 9, 11] ++ [pctHi 16] ∧
    colBoundaries 16 [] =
      [pctLo 16, pctLo 16 + (pctHi 16 - pctLo 16) / 6 * 1,
        pctLo 16 + (pctHi 16 - pctLo 16) / 6 * 2,
        pctLo 16 + (pctHi 16 - pctLo 16) / 6 * 3,
        pctLo 16 + (pctHi 16 - pctLo 16) / 6 * 4,
        pctLo 16 + (pctHi 16 - pctLo 16) / 6 * 5,
        pctLo 16 + (pctHi 16 - pctLo 16) / 6 * 6] := by
  constructor
  · exact (colBoundaries_spec 16 [3, 5, 7, 9, 11]).1 (by decide)
  · exact ((colBoundaries_spec 16 []).2 (by decide)).1

theorem dropWhile_append_of_all {p : Char → Bool} {t : List Char} (m : List Char)
    (ht : t.all p = true) : (t ++ m).dropWhile p = m.dropWhile p := by
  induction t with
  | nil => rfl
  | cons c t ih =>
    simp only [List.all_cons, Bool.and_eq_true] at ht
    simp [List.dropWhile_cons, ht.1, ih ht.2]

theorem rstripP_append_all {p : Char → Bool} {t : List Char} (m : List Char)
    (ht : t.all p = true) : rstripP p (m ++ t) = rstripP p m := by
  unfold rstripP
  rw [List.reverse_append, dropWhile_append_of_all _ (by simpa using ht)]

theorem rstripP_concat_neg {p : Char → Bool} {c : Char} (m : List Char)
    (hc : p c = false) : rstripP p (m ++ [c]) = m ++ [c] := by
  unfold rstripP
  rw [List.reverse_append]
  simp [List.dropWhile_cons, hc]

theorem rstripP_decomp (p : Char → Bool) (l : List Char) :
    l = rstripP p l ++ (l.reverse.takeWhile p).reverse ∧
      ((l.reverse.takeWhile p).reverse).all p = true := by
  constructor
  · unfold rstripP
    have h := List.takeWhile_append_dropWhile (p := p) (l := l.reverse)
    calc l = l.reverse.reverse := by rw [List.reverse_reverse]
    _ = (l.reverse.takeWhile p ++ l.reverse.dropWhile p).reverse := by rw [h]
    _ = _ := by rw [List.reverse_append]
  · simp only [List.all_reverse]
    rw [List.all_eq_true]
    intro c hc
    exact List.mem_takeWhile_imp hc

theorem trailingParenYear_shape {d1 d2 d3 d4 : Char} (q tail : List Char)
    (h1 : isDig d1) (h2 : isDig d2) (h3 : isDig d3) (h4 : isDig d4)
    (ht : tail.all pyIsSpace = true) :
    trailingParenYear (q ++ '(' :: d1 :: d2 :: d3 :: d4 :: ')' :: tail) =
      some (q, [d1, d2, d3, d4]) := by
  have hsplit : q ++ '(' :: d1 :: d2 :: d3 :: d4 :: ')' :: tail =
      (q ++ ['(', d1, d2, d3, d4] ++ [')']) ++ tail := by simp
  unfold trailingParenYear
  rw [hsplit, rstripP_append_all _ ht, rstripP_concat_neg _ (by decide)]
  simp [List.reverse_append, h1, h2, h3, h4]

theorem trailingParenYear_eq_some (l p ys : List Char)
    (h : trailingParenYear l = some (p, ys)) :
    ∃ d1 d2 d3 d4 tail, l = p ++ '(' :: d1 :: d2 :: d3 :: d4 :: ')' :: tail ∧
      isDig d1 ∧ isDig d2 ∧ isDig d3 ∧ isDig d4 ∧ tail.all pyIsSpace = true ∧
      ys = [d1, d2, d3, d4] := by
  unfold trailingParenYear at h
  split at h
  · rename_i d4 d3 d2 d1 restRev heq
    split at h
    · rename_i hdig
      simp only [Bool.and_eq_true] at hdig
      obtain ⟨hp, hys⟩ : restRev.reverse = p ∧ [d1, d2, d3, d4] = ys := by
        have hinj := Option.some.inj h
        exact ⟨congrArg Prod.fst hinj, congrArg Prod.snd hinj⟩
      have hdecomp := rstripP_decomp pyIsSpace l
      have hcore : rstripP pyIsSpace l =
          restRev.reverse ++ ['(', d1, d2, d3, d4, ')'] := by
        have hrev := congrArg List.reverse heq
        rw [List.reverse_reverse] at hrev
        rw [hrev]
        simp
      refine ⟨d1, d2, d3, d4, (l.reverse.takeWhile pyIsSpace).reverse, ?_,
        hdig.1.1.1, hdig.1.1.2, hdig.1.2, hdig.2, hdecomp.2, hys.symm⟩
      conv_lhs => rw [hdecomp.1]
      rw [hcore, hp]
      simp
    · exact absurd h (by simp)
  · exact absurd h (by simp)

theorem histHere_eq_some (l ys : List Char) (h : histHere l = some ys) :
    ∃ d1 d2 d3 d4 tail, l = '(' :: d1 :: d2 :: d3 :: d4 :: ')' :: tail ∧
      isDig d1 ∧ isDig d2 ∧ isDig d3 ∧ isDig d4 ∧ tail.all pyIsSpace = true ∧
      ys = [d1, d2, d3, d4] := by
  unfold histHere at h
  split at h
  · rename_i d1 d2 d3 d4 tail
    split at h
    · rename_i hcond
      simp only [Bool.and_eq_true] at hcond
      exact ⟨d1, d2, d3, d4, tail, rfl, hcond.1.1.1.1, hcond.1.1.1.2,
        hcond.1.1.2, hcond.1.2, hcond.2, (Option.some.inj h).symm⟩
    · exact absurd h (by simp)
  · exact absurd h (by simp)

theorem hist_eq : ∀ l, histSearch l = trailingParenYear l := by
  intro l
  induction l with
  | nil => rfl
  | cons c rest ih =>
    show (match histHere (c :: rest) with
      | some ys => some ([], ys)
      | none => (histSearch rest).map
          (fun pr : List Char × List Char => (c :: pr.1, pr.2))) = _
    cases hh : histHere (c :: rest) with
    | some ys =>
      obtain ⟨d1, d2, d3, d4, tail, hshape, h1, h2, h3, h4, ht, hys⟩ :=
        histHere_eq_some _ _ hh
      rw [hshape, hys]
      have hsh := trailingParenYear_shape [] tail h1 h2 h3 h4 ht
      simpa using hsh.symm
    | none =>
      simp only []
      rw [ih]
      cases tr : trailingParenYear rest with
      | some pr =>
        obtain ⟨p, ys⟩ := pr
        obtain ⟨d1, d2, d3, d4, tail, hshape, h1, h2, h3, h4, ht, hys⟩ :=
          trailingParenYear_eq_some rest p ys tr
        have hcr : c :: rest =
            (c :: p) ++ '(' :: d1 :: d2 :: d3 :: d4 :: ')' :: tail := by
          rw [hshape]
          simp
        rw [hcr, trailingParenYear_shape _ _ h1 h2 h3 h4 ht]
        simp [hys]
      | none =>
        cases tc : trailingParenYear (c :: rest) with
        | none => rfl
        | some qr =>
          exfalso
          obtain ⟨q, ys⟩ := qr
          obtain ⟨d1, d2, d3, d4, tail, hshape, h1, h2, h3, h4, ht, hys⟩ :=
            trailingParenYear_eq_some (c :: rest) q ys tc
          cases hq : q with
          | nil =>
            rw [hq] at hshape
            simp only [List.nil_append] at hshape
            have hc : c = '(' := (List.cons.inj hshape).1
            have hr : rest = d1 :: d2 :: d3 :: d4 :: ')' :: tail :=
              (List.cons.inj hshape).2
            have hhh : histHere (c :: rest) = some [d1, d2, d3, d4] := by
              rw [hc, hr]
              unfold histHere
              simp [h1, h2, h3, h4, ht]
            rw [hhh] at hh
            exact absurd hh (by simp)
          | cons q0 qrest =>
            rw [hq] at hshape
            simp only [List.cons_append] at hshape
            have hr : rest = qrest ++ '(' :: d1 :: d2 :: d3 :: d4 :: ')' :: tail :=
              (List.cons.inj hshape).2
            have htr : trailingParenYear rest = some (qrest, [d1, d2, d3, d4]) := by
              rw [hr]
              exact trailingParenYear_shape _ _ h1 h2 h3 h4 ht
            rw [htr] at tr
            exact absurd tr (by simp)

theorem flushEv_some_eq (year month d : ℕ) (descs : List (List Char)) :
    flushEv year month (some d) descs = specFlush year month (d, descs) := by
  simp only [flushEv, specFlush, hist_eq]

theorem flushEv_toList_eq (year month : ℕ) (d? : Option ℕ)
    (descs : List (List Char)) :
    (flushEv year month d? descs).toList =
      ((d?.map (fun d => (d, descs))).toList).filterMap
        (specFlush year month) := by
  cases d? with
  | none => rfl
  | some d =>
    rw [show (some d).map (fun x => (x, descs)) = some (d, descs) from rfl,
      flushEv_some_eq]
    cases h : specFlush year month (d, descs) <;> simp [h]

theorem dayLineMatch_nil : dayLineMatch [] = none := by decide

theorem month_go_eq (month year : ℕ) (lines : List (List Char)) :
    ∀ (d? : Option ℕ) (descs : List (List Char)) (evs : List PyEvent),
    ((lines.foldl (monthStep month year) ⟨d?, descs, evs⟩).events ++
      (flushEv year month
        (lines.foldl (monthStep month year) ⟨d?, descs, evs⟩).day
        (lines.foldl (monthStep month year) ⟨d?, descs, evs⟩).descs).toList) =
    evs ++ (specRecordsGo (d?.map (fun d => (d, descs)))
        (lines.map (classifyLine month year))).filterMap
      (specFlush year month) := by
  induction lines with
  | nil =>
    intro d? descs evs
    simp only [List.foldl_nil, List.map_nil, specRecordsGo]
    rw [flushEv_toList_eq]
  | cons l rest ih =>
    intro d? descs evs
    simp only [List.foldl_cons, List.map_cons]
    by_cases hcls : ∃ dr, dayLineMatch (pystrip l) = some dr ∧
        1 ≤ dr.1 ∧ dr.1 ≤ days_in_month month year
    · obtain ⟨dr, hm, hr⟩ := hcls
      have hstep : monthStep month year ⟨d?, descs, evs⟩ l =
          ⟨some dr.1, [pystrip dr.2],
            evs ++ (flushEv year month d? descs).toList⟩ := by
        simp only [monthStep, hm, hr, and_self, if_pos]
      have hcl : classifyLine month year l = .dayLine dr.1 (pystrip dr.2) := by
        simp only [classifyLine, hm, hr, and_self, if_pos]
      rw [hstep, hcl]
      show _ = evs ++ (specRecordsGo _ (LineKind.dayLine dr.1 (pystrip dr.2) :: _)).filterMap _
      rw [show specRecordsGo (d?.map (fun d => (d, descs)))
          (LineKind.dayLine dr.1 (pystrip dr.2) :: rest.map (classifyLine month year)) =
        (d?.map (fun d => (d, descs))).toList ++
          specRecordsGo (some (dr.1, [pystrip dr.2]))
            (rest.map (classifyLine month year)) from rfl]
      rw [List.filterMap_append, ih]
      rw [flushEv_toList_eq]
      have hmap : (some (dr.1, [pystrip dr.2]) : Option (ℕ × List (List Char))) =
          (some dr.1).map (fun d => (d, [pystrip dr.2])) := rfl
      rw [hmap]
      simp [List.append_assoc]
    · -- not an in-range day line: plain or blank
      push_neg at hcls
      have hnr : ∀ dr, dayLineMatch (pystrip l) = some dr →
          ¬(1 ≤ dr.1 ∧ dr.1 ≤ days_in_month month year) := by
        intro dr hm hcc
        have hlt := hcls dr hm hcc.1
        omega
      have hcl : classifyLine month year l =
          if pystrip l = [] then .blank else .plain (pystrip l) := by
        cases hm : dayLineMatch (pystrip l) with
        | some dr => simp only [classifyLine, hm, hnr dr hm, if_neg, not_false_iff]
        | none => simp only [classifyLine, hm]
      by_cases hnil : pystrip l = []
      · have hstep : monthStep month year ⟨d?, descs, evs⟩ l = ⟨d?, descs, evs⟩ := by
          simp [monthStep, hnil, dayLineMatch_nil]
        rw [hstep, hcl]
        simp only [hnil, if_pos]
        rw [show specRecordsGo (d?.map (fun d => (d, descs)))
            (LineKind.blank :: rest.map (classifyLine month year)) =
          specRecordsGo (d?.map (fun d => (d, descs)))
            (rest.map (classifyLine month year)) from rfl]
        exact ih d? descs evs
      · cases d? with
        | none =>
          have hstep : monthStep month year ⟨none, descs, evs⟩ l =
              ⟨none, descs, evs⟩ := by
            cases hm : dayLineMatch (pystrip l) with
            | some dr => simp [monthStep, hm, hnr dr hm]
            | none => simp [monthStep, hm]
          rw [hstep, hcl]
          simp only [hnil, if_neg, not_false_iff]
          exact ih none descs evs
        | some d =>
          have hstep : monthStep month year ⟨some d, descs, evs⟩ l =
              ⟨some d, descs ++ [pystrip l], evs⟩ := by
            cases hm : dayLineMatch (pystrip l) with
            | some dr => simp [monthStep, hm, hnr dr hm, hnil]
            | none => simp [monthStep, hm, hnil]
          rw [hstep, hcl]
          simp only [hnil, if_neg, not_false_iff]
          rw [show specRecordsGo ((some d).map (fun x => (x, descs)))
              (LineKind.plain (pystrip l) :: rest.map (classifyLine month year)) =
            specRecordsGo (some (d, descs ++ [pystrip l]))
              (rest.map (classifyLine month year)) from rfl]
          have hmap : (some (d, descs ++ [pystrip l]) : Option (ℕ × List (List Char))) =
              (some d).map (fun x => (x, descs ++ [pystrip l])) := rfl
          rw [hmap]
          exact ih (some d) (descs ++ [pystrip l]) evs

/-- Claim C1 counterexample: on the month text
`"5 L. (a) comemorare (1877)"` (month 1, year 2025) the code emits the
title `"a) comemorare"` — the flush also strips surrounding spaces,
parentheses and dashes (`strip(" ()–—")`) — whereas the title built
exactly as the claim describes (join, remove trailing year, collapse
whitespace, truncate) would be `"(a) comemorare "`. -/
theorem parse_month_text_counterexample :
    parse_month_text "5 L. (a) comemorare (1877)" 1 2025 =
      [{ title := "a) comemorare", date := "2025-01-05", end_date := "",
         description := "An: 1877", location := "" }] ∧
    parse_month_text_claimed "5 L. (a) comemorare (1877)" 1 2025 =
      [{ title := "(a) comemorare ", date := "2025-01-05", end_date := "",
         description := "An: 1877", location := "" }] ∧
    parse_month_text "5 L. (a) comemorare (1877)" 1 2025 ≠
      parse_month_text_claimed "5 L. (a) comemorare (1877)" 1 2025 := by
  decide

/-- Claim C1 (amended): for every month text, month number and year,
`_parse_month_text` behaves as the state machine of the claim with one
addition to the flush rule: after removing the trailing parenthesized
4-digit token the title is also stripped of surrounding spaces,
parentheses and en/em dashes, before whitespace collapse and
truncation.  Formally, the source parser coincides with the two-phase
spec machine (line classifier, record accumulator, amended flush). -/
theorem parse_month_text_eq_spec (text : String) (month year : ℕ) :
    parse_month_text text month year = parse_month_text_spec text month year := by
  have h := month_go_eq month year (splitlinesPy text.data) none [] []
  simpa [parse_month_text, parse_month_text_spec] using h

/-- Claim C10: a line matching the day-line pattern whose day number is
outside `[1, days_in_month month year]` never starts a new record: with
a pending day the trimmed line is appended to the pending description
(events and pending day unchanged), and with no pending day the line is
discarded (state unchanged). -/
theorem month_step_out_of_range (month year : ℕ) (s : MState) (l : List Char)
    (dr : ℕ × List Char) (hm : dayLineMatch (pystrip l) = some dr)
    (hout : ¬(1 ≤ dr.1 ∧ dr.1 ≤ days_in_month month year)) :
    monthStep month year s l =
      (match s.day with
       | some _ => { s with descs := s.descs ++ [pystrip l] }
       | none => s) := by
  have hne : pystrip l ≠ [] := by
    intro h0
    rw [h0, dayLineMatch_nil] at hm
    exact absurd hm (by simp)
  cases hd : s.day with
  | some d => simp [monthStep, hm, hout, hne, hd]
  | none => simp [monthStep, hm, hout, hd]

/-- Claim C10 witness: day 99 is out of range for January 2025; with
day 3 pending, the line is appended to the pending description. -/
theorem month_step_out_of_range_witness :
    monthStep 1 2025 ⟨some 3, [['a']], []⟩ "99 L. xyz".data =
      (match (⟨some 3, [['a']], []⟩ : MState).day with
       | some _ =>
         { (⟨some 3, [['a']], []⟩ : MState) with
             descs := (⟨some 3, [['a']], []⟩ : MState).descs ++
               [pystrip "99 L. xyz".data] }
       | none => (⟨some 3, [['a']], []⟩ : MState)) :=
  month_step_out_of_range 1 2025 ⟨some 3, [['a']], []⟩ "99 L. xyz".data
    (99, "xyz".data) (by decide) (by decide)

theorem digitRunsGo_digits (l : List Char) :
    ∀ (cur : List Char), cur.all isDig = true →
      ∀ r ∈ digitRunsGo cur l, r.all isDig = true := by
  induction l with
  | nil =>
    intro cur hc r hr
    unfold digitRunsGo at hr
    split at hr
    · simp at hr
    · simp only [List.mem_singleton] at hr
      subst hr
      simpa using hc
  | cons c rest ih =>
    intro cur hc r hr
    unfold digitRunsGo at hr
    split at hr
    · rename_i hdig
      exact ih (c :: cur) (by simp [hc, hdig]) r hr
    · split at hr
      · exact ih [] rfl r hr
      · rcases List.mem_cons.mp hr with h | h
        · subst h
          simpa using hc
        · exact ih [] rfl r h

theorem isDig_bounds (c : Char) (h : isDig c = true) :
    48 ≤ c.toNat ∧ c.toNat ≤ 57 := by
  simpa [isDig, Bool.and_eq_true, decide_eq_true_eq] using h

theorem char_of_toNat (c : Char) (n : ℕ) (h : c.toNat = n) : c = Char.ofNat n := by
  rw [← h, Char.ofNat_toNat]

theorem run4_range_prefix20 (c1 c2 c3 c4 : Char) (h1 : isDig c1 = true)
    (h2 : isDig c2 = true) (h3 : isDig c3 = true) (h4 : isDig c4 = true)
    (hlo : 2024 ≤ toNatDigits [c1, c2, c3, c4])
    (hhi : toNatDigits [c1, c2, c3, c4] ≤ 2035) :
    c1 = '2' ∧ c2 = '0' := by
  have hv : toNatDigits [c1, c2, c3, c4] =
      10 * (10 * (10 * (c1.toNat - 48) + (c2.toNat - 48)) + (c3.toNat - 48)) +
        (c4.toNat - 48) := by
    simp [toNatDigits, List.foldl]
  obtain ⟨a1, b1⟩ := isDig_bounds c1 h1
  obtain ⟨a2, b2⟩ := isDig_bounds c2 h2
  obtain ⟨a3, b3⟩ := isDig_bounds c3 h3
  obtain ⟨a4, b4⟩ := isDig_bounds c4 h4
  rw [hv] at hlo hhi
  have hc1 : c1.toNat = 50 := by omega
  have hc2 : c2.toNat = 48 := by omega
  exact ⟨char_of_toNat c1 50 hc1, char_of_toNat c2 48 hc2⟩

theorem candidates_eq_aux (rs : List (List Char))
    (hd : ∀ r ∈ rs, r.all isDig = true) :
    (rs.filterMap token20).filter (fun y => 2024 ≤ y ∧ y ≤ 2035) =
      (rs.filterMap token4).filter (fun y => 2024 ≤ y ∧ y ≤ 2035) := by
  induction rs with
  | nil => rfl
  | cons r rest ih =>
    have hdr : r.all isDig = true := hd r (List.mem_cons_self r rest)
    have hdrest : ∀ x ∈ rest, x.all isDig = true :=
      fun x hx => hd x (List.mem_cons_of_mem r hx)
    have htail := ih hdrest
    match r, hdr with
    | [], _ => simpa [token20, token4] using htail
    | [c1], _ => simpa [token20, token4] using htail
    | [c1, c2], _ => simpa [token20, token4] using htail
    | [c1, c2, c3], _ => simpa [token20, token4] using htail
    | c1 :: c2 :: c3 :: c4 :: c5 :: cs, _ => simpa [token20, token4] using htail
    | [c1, c2, c3, c4], hdr =>
      simp only [List.all_cons, List.all_nil, Bool.and_eq_true, and_true] at hdr
      obtain ⟨h1, h2, h3, h4⟩ := hdr
      by_cases hp : 2024 ≤ toNatDigits [c1, c2, c3, c4] ∧
          toNatDigits [c1, c2, c3, c4] ≤ 2035
      · obtain ⟨e1, e2⟩ := run4_range_prefix20 c1 c2 c3 c4 h1 h2 h3 h4 hp.1 hp.2
        subst e1
        subst e2
        simp [token20, token4, List.filter_cons, hp.1, hp.2]
        simpa using htail
      · by_cases hc : c1 = '2' ∧ c2 = '0'
        · obtain ⟨e1, e2⟩ := hc
          subst e1
          subst e2
          simp [token20, token4, List.filter_cons, hp]
          simpa using htail
        · simp [token20, token4, List.filter_cons, hc, hp]
          simpa using htail

theorem yearCandidates_eq (l : List Char) :
    yearCandidates l = yearCandidates4 l :=
  candidates_eq_aux (digitRuns l) (digitRunsGo_digits l [] rfl)

theorem firstSeenGo_sub (l : List ℕ) :
    ∀ seen x, x ∈ firstSeenGo seen l → x ∈ l := by
  induction l with
  | nil =>
    intro seen x h
    simp [firstSeenGo] at h
  | cons y rest ih =>
    intro seen x h
    unfold firstSeenGo at h
    split at h
    · exact List.mem_cons_of_mem y (ih seen x h)
    · rcases List.mem_cons.mp h with h | h
      · exact h ▸ List.mem_cons_self y rest
      · exact List.mem_cons_of_mem y (ih (y :: seen) x h)

theorem mem_firstSeenGo (l : List ℕ) :
    ∀ seen x, x ∈ l → x ∉ seen → x ∈ firstSeenGo seen l := by
  induction l with
  | nil => intro seen x h; simp at h
  | cons y rest ih =>
    intro seen x hx hns
    unfold firstSeenGo
    split
    · rename_i hy
      rcases List.mem_cons.mp hx with h | h
      · exact absurd (h ▸ hy) hns
      · exact ih seen x h hns
    · rename_i hy
      rcases List.mem_cons.mp hx with h | h
      · exact h ▸ List.mem_cons_self y _
      · by_cases hxy : x = y
        · exact hxy ▸ List.mem_cons_self y _
        · refine List.mem_cons_of_mem y (ih (y :: seen) x h ?_)
          simp only [List.mem_cons, not_or]
          exact ⟨hxy, hns⟩

theorem foldl_best_spec (l : List ℕ) (ks : List ℕ) :
    ∀ k, (ks.foldl (fun best x => if l.count x > l.count best then x else best) k)
        ∈ k :: ks ∧
      ∀ y ∈ k :: ks,
        l.count y ≤ l.count
          (ks.foldl (fun best x => if l.count x > l.count best then x else best) k) := by
  induction ks with
  | nil =>
    intro k
    constructor
    · simp
    · intro y hy
      simp only [List.mem_singleton] at hy
      subst hy
      exact le_refl _
  | cons x ks ih =>
    intro k
    simp only [List.foldl_cons]
    obtain ⟨hmem, hbnd⟩ := ih (if l.count x > l.count k then x else k)
    constructor
    · have hite : (if l.count x > l.count k then x else k) ∈ k :: x :: ks := by
        split <;> simp
      rcases List.mem_cons.mp hmem with h | h
      · rw [h]; exact hite
      · exact List.mem_cons_of_mem _ (List.mem_cons_of_mem _ h)
    · intro y hy
      rcases List.mem_cons.mp hy with h | h
      · subst h
        refine le_trans ?_ (hbnd _ (List.mem_cons_self _ _))
        split <;> omega
      · rcases List.mem_cons.mp h with h2 | h2
        · subst h2
          refine le_trans ?_ (hbnd _ (List.mem_cons_self _ _))
          split <;> omega
        · exact hbnd y (List.mem_cons_of_mem _ h2)

theorem mostCommon_spec (l : List ℕ) (hl : l ≠ []) :
    mostCommon l 0 ∈ l ∧ ∀ y ∈ l, l.count y ≤ l.count (mostCommon l 0) := by
  obtain ⟨z, zs, rfl⟩ := List.exists_cons_of_ne_nil hl
  have hzmem : z ∈ firstSeen (z :: zs) :=
    mem_firstSeenGo (z :: zs) [] z (List.mem_cons_self z zs) (by simp)
  have hfs : firstSeen (z :: zs) ≠ [] := by
    intro h0
    rw [h0] at hzmem
    simp at hzmem
  obtain ⟨k, ks, heq⟩ := List.exists_cons_of_ne_nil hfs
  have hmc : mostCommon (z :: zs) 0 =
      ks.foldl (fun best x =>
        if (z :: zs).count x > (z :: zs).count best then x else best) k := by
    unfold mostCommon
    rw [heq]
  obtain ⟨hmem, hbnd⟩ := foldl_best_spec (z :: zs) ks k
  rw [hmc]
  constructor
  · have hin : (ks.foldl (fun best x =>
        if (z :: zs).count x > (z :: zs).count best then x else best) k) ∈
        firstSeen (z :: zs) := by
      rw [heq]
      exact hmem
    exact firstSeenGo_sub (z :: zs) [] _ hin
  · intro y hy
    have hyfs : y ∈ firstSeen (z :: zs) :=
      mem_firstSeenGo (z :: zs) [] y hy (by simp)
    rw [heq] at hyfs
    exact hbnd y hyfs

/-- Claim C7: year detection never fails: the candidate tokens are
exactly the 4-digit tokens bounded by non-digit characters whose value
lies in `[2024, 2035]`; with no candidate the result is
`current_year + 1` (also when the title-band recognition fails, whose
error is swallowed); otherwise the result is a candidate of maximal
frequency. -/
theorem detect_year_never_fails (rec : OcrLang → Except String String)
    (cy : ℕ) (text : List Char) :
    yearCandidates text = yearCandidates4 text ∧
    (yearCandidates text = [] → detect_year_from text cy = cy + 1) ∧
    (yearCandidates text ≠ [] →
      detect_year_from text cy ∈ yearCandidates text ∧
      ∀ y ∈ yearCandidates text,
        (yearCandidates text).count y ≤
          (yearCandidates text).count (detect_year_from text cy)) ∧
    (∀ e, rec OcrLang.ronEng = Except.error e →
      detect_year rec cy = cy + 1) := by
  refine ⟨yearCandidates_eq text, ?_, ?_, ?_⟩
  · intro h
    simp [detect_year_from, h]
  · intro h
    have hmc := mostCommon_spec (yearCandidates text) h
    have hval : detect_year_from text cy = mostCommon (yearCandidates text) 0 := by
      simp [detect_year_from, h]
    rw [hval]
    exact hmc
  · intro e h
    simp [detect_year, detectYearOcrText, h]
    rfl

/-- Claim C7 witness: the empty text yields the default
`current_year + 1 = 2031`; on a text with years `2026, 2024, 2026` the
result is one of the candidates; a recognizer failing on `ron+eng`
still yields the default. -/
theorem detect_year_never_fails_witness :
    detect_year_from "".data 2030 = 2031 ∧
    detect_year_from "An 2026, 2024 si 2026".data 2030 ∈
      yearCandidates "An 2026, 2024 si 2026".data ∧
    detect_year (fun _ => Except.error "no language data") 2030 = 2031 :=
  ⟨(detect_year_never_fails (fun _ => Except.error "x") 2030 "".data).2.1
      (by decide),
   ((detect_year_never_fails (fun _ => Except.error "x") 2030
      "An 2026, 2024 si 2026".data).2.2.1 (by decide)).1,
   (detect_year_never_fails (fun _ => Except.error "no language data") 2030
      "".data).2.2.2 "no language data" rfl⟩

/-- Claim C6 counterexample: the year-title-band OCR call does not
retry with the English-only hint and never propagates: with a
recognizer that fails on `ron+eng` but reads `"Calendar 2026 2026"`
under `eng`, `_detect_year` returns the default `2031`, while the
behaviour the claim describes (retry, then use the text) would return
`2026`; and when both hints fail, `_detect_year` still returns the
default instead of propagating a fatal error. -/
theorem detect_year_retry_counterexample :
    detect_year (fun lg => match lg with
      | OcrLang.ronEng => Except.error "missing ron+eng"
      | OcrLang.eng => Except.ok "Calendar 2026 2026") 2030 = 2031 ∧
    detect_year_claimed (fun lg => match lg with
      | OcrLang.ronEng => Except.error "missing ron+eng"
      | OcrLang.eng => Except.ok "Calendar 2026 2026") 2030 =
      Except.ok 2026 ∧
    (2031 : ℕ) ≠ 2026 ∧
    detect_year (fun _ => Except.error "missing") 2030 = 2031 ∧
    detect_year_claimed (fun _ =>
      (Except.error "missing" : Except String String)) 2030 =
      Except.error "missing" :=
  ⟨rfl, rfl, by decide, rfl, rfl⟩

/-- Claim C6 (amended): the whole-image poster pass and each
month-column OCR call follow the retry discipline — on success of the
Romanian+English recognition its text is used, on failure the call is
retried exactly once with the English-only hint and a second failure
propagates (`ocrWithRetry rec = rec eng`) — while the year-title-band
call swallows any failure of the Romanian+English recognition without
retrying: year detection then proceeds on empty text and returns
`current_year + 1`. -/
theorem ocr_retry_and_year_band (rec : OcrLang → Except String String)
    (cy : ℕ) :
    (∀ t, rec OcrLang.ronEng = Except.ok t →
      ocrWithRetry rec = Except.ok t) ∧
    (∀ e, rec OcrLang.ronEng = Except.error e →
      ocrWithRetry rec = rec OcrLang.eng) ∧
    (∀ t, rec OcrLang.ronEng = Except.ok t →
      detect_year rec cy = detect_year_from t.data cy) ∧
    (∀ e, rec OcrLang.ronEng = Except.error e →
      detect_year rec cy = cy + 1) := by
  refine ⟨?_, ?_, ?_, ?_⟩
  · intro t h
    simp [ocrWithRetry, h]
  · intro e h
    simp [ocrWithRetry, h]
  · intro t h
    simp [detect_year, detectYearOcrText, h]
  · intro e h
    simp [detect_year, detectYearOcrText, h]
    rfl

/-- Claim C6 witness: the amended retry discipline evaluated on
concrete recognizers. -/
theorem ocr_retry_and_year_band_witness :
    ocrWithRetry (fun _ => Except.ok "text") = Except.ok "text" ∧
    ocrWithRetry (fun lg => match lg with
      | OcrLang.ronEng => Except.error "e"
      | OcrLang.eng => Except.ok "t2") = Except.ok "t2" ∧
    detect_year (fun _ => Except.ok "2026 2026") 2030 =
      detect_year_from "2026 2026".data 2030 ∧
    detect_year (fun _ => (Except.error "e" : Except String String)) 2030 =
      2031 :=
  ⟨(ocr_retry_and_year_band (fun _ => Except.ok "text") 0).1 "text" rfl,
   by rw [(ocr_retry_and_year_band (fun lg => match lg with
      | OcrLang.ronEng => Except.error "e"
      | OcrLang.eng => Except.ok "t2") 0).2.1 "e" rfl],
   (ocr_retry_and_year_band (fun _ => Except.ok "2026 2026") 2030).2.2.1
      "2026 2026" rfl,
   (ocr_retry_and_year_band (fun _ =>
      (Except.error "e" : Except String String)) 2030).2.2.2 "e" rfl⟩

theorem foldl_max_init (vs : List ℚ) : ∀ v : ℚ, v ≤ vs.foldl max v := by
  induction vs with
  | nil => intro v; exact le_refl v
  | cons w vs ih =>
    intro v
    exact le_trans (le_max_left v w) (ih (max v w))

theorem foldl_max_mem (vs : List ℚ) :
    ∀ (v b : ℚ), b ∈ vs → b ≤ vs.foldl max v := by
  induction vs with
  | nil => intro v b h; simp at h
  | cons w vs ih =>
    intro v b h
    rcases List.mem_cons.mp h with h | h
    · subst h
      exact le_trans (le_max_right v b) (foldl_max_init vs (max v b))
    · exact ih (max v w) b h

theorem windowMaxQ_ge (f : ℕ → ℚ) (lo hi k : ℕ) (h1 : lo ≤ k) (h2 : k < hi) :
    f k ≤ windowMaxQ f lo hi := by
  have hk : k ∈ List.range' lo (hi - lo) := by
    rw [List.mem_range']
    refine ⟨k - lo, by omega, by omega⟩
  have hfk : f k ∈ (List.range' lo (hi - lo)).map f := List.mem_map_of_mem f hk
  unfold windowMaxQ
  cases hm : (List.range' lo (hi - lo)).map f with
  | nil => rw [hm] at hfk; simp at hfk
  | cons v vs =>
    rw [hm] at hfk
    rcases List.mem_cons.mp hfk with h | h
    · rw [h]
      exact foldl_max_init vs v
    · exact foldl_max_mem vs v (f k) h

theorem sepCandidate_closeby_eq (arr : List (List ℚ)) (y0 y1 W : ℕ)
    (x y : ℕ) (hx : sepCandidate arr y0 y1 W x = true)
    (hy : sepCandidate arr y0 y1 W y = true) (hlt : x < y)
    (hcl : y < x + W / 9) :
    smoothedB arr y0 y1 W x = smoothedB arr y0 y1 W y := by
  simp only [sepCandidate, decide_eq_true_eq] at hx hy
  obtain ⟨hx1, hx2, hx3, _⟩ := hx
  obtain ⟨hy1, hy2, hy3, _⟩ := hy
  have hyx : smoothedB arr y0 y1 W y ≤ smoothedB arr y0 y1 W x := by
    rw [hx3]
    exact windowMaxQ_ge _ _ _ y (by omega) (by omega)
  have hxy : smoothedB arr y0 y1 W x ≤ smoothedB arr y0 y1 W y := by
    rw [hy3]
    exact windowMaxQ_ge _ _ _ x (by omega) (by omega)
  exact le_antisymm hxy hyx

set_option maxRecDepth 8000 in
unseal Rat.add Rat.mul Rat.inv Rat.sub in
/-- Claim C3 counterexample: on a 30-pixel-wide all-bright band the
smoothed signal has a plateau and every plateau point is a window
maximum; the detector returns `[10, 11, 12, 13, 14]`, adjacent
positions at distance 1 < `W/9 = 3`, so the claimed minimum spacing
`W/9` between accepted candidates does not hold. -/
theorem detect_col_separators_spacing_counterexample :
    detect_col_separators [List.replicate 30 (255 : ℚ)] 0 1 30 =
      [10, 11, 12, 13, 14] ∧
    10 ∈ detect_col_separators [List.replicate 30 (255 : ℚ)] 0 1 30 ∧
    11 ∈ detect_col_separators [List.replicate 30 (255 : ℚ)] 0 1 30 ∧
    (11 - 10 : ℕ) < 30 / 9 := by
  have heq : detect_col_separators [List.replicate 30 (255 : ℚ)] 0 1 30 =
      [10, 11, 12, 13, 14] := by decide
  refine ⟨heq, ?_, ?_, by decide⟩ <;> rw [heq] <;> decide

/-- Claim C3 (amended): for every brightness array, row band and image
width `W ≥ 9` (for `W ≤ 8` the scan evaluates `max()` on an empty
slice and raises), the detector returns at most 5 x-positions, sorted
strictly ascending, each a maximum of the smoothed per-column mean
brightness over its window of radius `W/9` with brightness above 200;
it keeps a set of maximal brightness (any rejected candidate is no
brighter than any kept one); and two accepted candidates closer than
`W/9` can occur, but only with equal smoothed brightness (the claimed
unconditional minimum spacing fails, see the counterexample). -/
theorem detect_col_separators_spec (arr : List (List ℚ)) (y0 y1 W : ℕ)
    (hW : 9 ≤ W) :
    (detect_col_separators arr y0 y1 W).length ≤ 5 ∧
    List.Pairwise (· < ·) (detect_col_separators arr y0 y1 W) ∧
    (∀ x ∈ detect_col_separators arr y0 y1 W,
      sepCandidate arr y0 y1 W x = true) ∧
    (∀ x ∈ detect_col_separators arr y0 y1 W,
      ∀ y, sepCandidate arr y0 y1 W y = true →
        y ∉ detect_col_separators arr y0 y1 W →
        smoothedB arr y0 y1 W y ≤ smoothedB arr y0 y1 W x) ∧
    (∀ x ∈ detect_col_separators arr y0 y1 W,
      ∀ y ∈ detect_col_separators arr y0 y1 W,
      x < y → y < x + W / 9 →
      smoothedB arr y0 y1 W x = smoothedB arr y0 y1 W y) := by
  have _hW := hW
  haveI hTot : IsTotal ℕ (fun a b =>
      smoothedB arr y0 y1 W b ≤ smoothedB arr y0 y1 W a) :=
    ⟨fun a b => le_total (smoothedB arr y0 y1 W b) (smoothedB arr y0 y1 W a)⟩
  haveI hTrans : IsTrans ℕ (fun a b =>
      smoothedB arr y0 y1 W b ≤ smoothedB arr y0 y1 W a) :=
    ⟨fun _ _ _ h1 h2 => le_trans h2 h1⟩
  set sm := smoothedB arr y0 y1 W with hsm
  set cands := (List.range W).filter (sepCandidate arr y0 y1 W) with hcands
  set S := cands.insertionSort (fun a b => sm b ≤ sm a) with hS
  set T := S.take 5 with hT
  have hr : detect_col_separators arr y0 y1 W = T.insertionSort (· ≤ ·) := rfl
  have hpermS : List.Perm S cands := List.perm_insertionSort _ cands
  have hpermR : List.Perm (T.insertionSort (· ≤ ·)) T := List.perm_insertionSort _ T
  have hmemTS : ∀ x ∈ T, x ∈ S := fun x hx => (List.take_sublist 5 S).mem hx
  have hmemRT : ∀ x, x ∈ T.insertionSort (· ≤ ·) ↔ x ∈ T :=
    fun x => hpermR.mem_iff
  have hcand_of_mem : ∀ x ∈ T.insertionSort (· ≤ ·),
      sepCandidate arr y0 y1 W x = true := by
    intro x hx
    have hxT := (hmemRT x).mp hx
    have hxS := hmemTS x hxT
    have hxc := hpermS.mem_iff.mp hxS
    exact (List.mem_filter.mp hxc).2
  have hnodupC : cands.Nodup := (List.nodup_range W).filter _
  have hnodupS : S.Nodup := hpermS.nodup_iff.mpr hnodupC
  have hnodupT : T.Nodup := (List.take_sublist 5 S).nodup hnodupS
  have hnodupR : (T.insertionSort (· ≤ ·)).Nodup := hpermR.nodup_iff.mpr hnodupT
  rw [hr]
  refine ⟨?_, ?_, hcand_of_mem, ?_, ?_⟩
  · rw [hpermR.length_eq, hT]
    simp [List.length_take]
  · have hsorted : List.Sorted (· ≤ ·) (T.insertionSort (· ≤ ·)) :=
      List.sorted_insertionSort (· ≤ ·) T
    have hand := List.Pairwise.and hsorted hnodupR
    exact hand.imp (fun hab => lt_of_le_of_ne hab.1 hab.2)
  · intro x hx y hyc hyn
    have hxT := (hmemRT x).mp hx
    have hyS : y ∈ S := hpermS.mem_iff.mpr
      (List.mem_filter.mpr ⟨List.mem_range.mpr ?_, hyc⟩)
    swap
    · simp only [sepCandidate, decide_eq_true_eq] at hyc
      omega
    have hynT : y ∉ T := fun hmem => hyn ((hmemRT y).mpr hmem)
    have hsplit : S = T ++ S.drop 5 := (List.take_append_drop 5 S).symm
    have hyD : y ∈ S.drop 5 := by
      rw [hsplit] at hyS
      rcases List.mem_append.mp hyS with h | h
      · exact absurd h hynT
      · exact h
    have hsortedS : List.Sorted (fun a b => sm b ≤ sm a) S :=
      List.sorted_insertionSort _ cands
    have hpw : List.Pairwise (fun a b => sm b ≤ sm a) (T ++ S.drop 5) := by
      rw [← hsplit]
      exact hsortedS
    exact ((List.pairwise_append.mp hpw).2.2 x hxT y hyD)
  · intro x hx y hy hlt hcl
    exact sepCandidate_closeby_eq arr y0 y1 W x y
      (hcand_of_mem x hx) (hcand_of_mem y hy) hlt hcl

/-- Claim C3 witness: the amended properties evaluated on the concrete
30-pixel band. -/
theorem detect_col_separators_spec_witness :
    (detect_col_separators [List.replicate 30 (255 : ℚ)] 0 1 30).length ≤ 5 ∧
    List.Pairwise (· < ·)
      (detect_col_separators [List.replicate 30 (255 : ℚ)] 0 1 30) :=
  ⟨(detect_col_separators_spec [List.replicate 30 (255 : ℚ)] 0 1 30
      (by decide)).1,
   (detect_col_separators_spec [List.replicate 30 (255 : ℚ)] 0 1 30
      (by decide)).2.1⟩

theorem classifyPoster_plain_iff (l : List Char) :
    classifyPoster l = PosterLine.plain ↔ searchDate l = none := by
  unfold classifyPoster
  cases hs : searchDate l with
  | none => simp
  | some r => simp

theorem posterSpecLine_succ (oracle : String → Option PDate)
    (l : List Char) (rest : List (List Char)) (i : ℕ) :
    posterSpecLine oracle (l :: rest) (i + 1) =
      posterSpecLine oracle rest i := by
  unfold posterSpecLine
  simp only [List.getD_cons_succ, List.length_cons, Nat.succ_lt_succ_iff]

theorem posterSpecLine_zero (oracle : String → Option PDate)
    (l : List Char) (rest : List (List Char)) :
    posterEvent oracle l rest.head? = posterSpecLine oracle (l :: rest) 0 := by
  unfold posterSpecLine
  simp only [List.getD_cons_zero]
  cases hs : searchDate l with
  | none =>
    simp [posterEvent, classifyPoster, hs]
  | some r =>
    obtain ⟨before, matched, after⟩ := r
    simp only [posterEvent, classifyPoster, hs]
    cases ho : oracle matched.asString with
    | none => simp
    | some dt =>
      simp only [Option.map_some]
      cases rest with
      | nil => simp
      | cons nl rest2 =>
        simp only [List.head?_cons, List.getD_cons_succ, List.getD_cons_zero,
          List.length_cons]
        cases hs2 : searchDate nl with
        | none =>
          have hcl : classifyPoster nl = PosterLine.plain :=
            (classifyPoster_plain_iff nl).mpr hs2
          simp [hs2, hcl, Nat.succ_lt_succ_iff, Option.isNone]
        | some r2 =>
          have hcl : ¬ classifyPoster nl = PosterLine.plain := by
            rw [classifyPoster_plain_iff, hs2]
            simp
          simp [hs2, hcl, Option.isNone]

theorem extractGo_eq_claimed (oracle : String → Option PDate) :
    ∀ lines : List (List Char),
    extractGo oracle lines =
      (List.range lines.length).filterMap (posterSpecLine oracle lines) := by
  intro lines
  induction lines with
  | nil => rfl
  | cons l rest ih =>
    show (posterEvent oracle l rest.head?).toList ++ extractGo oracle rest = _
    rw [List.length_cons, List.range_succ_eq_map, List.filterMap_cons,
      List.filterMap_map]
    have htail : (List.range rest.length).filterMap
        (posterSpecLine oracle (l :: rest) ∘ Nat.succ) =
        extractGo oracle rest := by
      rw [ih]
      apply List.filterMap_congr
      intro i _
      exact posterSpecLine_succ oracle l rest i
    rw [htail, posterSpecLine_zero oracle l rest]
    cases hF : posterSpecLine oracle (l :: rest) 0 with
    | none => simp
    | some ev => simp

/-- Claim C5: `_extract_events` is exactly the poster extractor the
claim describes: per non-empty trimmed line, the first date match
(leftmost position, the four pattern families tried in their fixed
precedence order at each position) is parsed by the locale-aware
capability — parse failures skip the line silently — and the emitted
event carries the remainder-plus-undated-next-line title joined with
an em-dash ("Eveniment" when empty) and empty `end_date`,
`description` and `location`. -/
theorem extract_events_eq_claimed (oracle : String → Option PDate)
    (text : String) :
    extract_events oracle text = poster_events_claimed oracle text :=
  extractGo_eq_claimed oracle (pyLines text)

/-- Claim C2: with the brightness capability available and a
landscape image (`W > H`), the orchestrator accepts the grid-path
result exactly when it has at least 10 events, returning those events
with the summary string (dimensions, event count, distinct month
count, detected year — see `mkSummary`) in place of the raw text;
with fewer than 10 events, a portrait image, or the capability
absent, it runs the poster pass instead, which returns the raw
recognized text alongside the poster events. -/
theorem upload_gate (numpyAvail : Bool) (W H : ℕ) (grid : List PyEvent)
    (rec : OcrLang → Except String String)
    (oracle : String → Option PDate) :
    (numpyAvail = true → W > H → 10 ≤ grid.length →
      uploadCore numpyAvail W H grid rec oracle =
        Except.ok (mkSummary W H grid, grid)) ∧
    ((numpyAvail = false ∨ ¬ W > H ∨ grid.length < 10) →
      uploadCore numpyAvail W H grid rec oracle = posterPass rec oracle) ∧
    (∀ t, ocrWithRetry rec = Except.ok t →
      posterPass rec oracle = Except.ok (t, extract_events oracle t)) ∧
    (∀ e, ocrWithRetry rec = Except.error e →
      posterPass rec oracle = Except.error e) := by
  refine ⟨?_, ?_, ?_, ?_⟩
  · intro h1 h2 h3
    simp [uploadCore, h1, h2, h3]
  · intro h
    rcases h with h | h | h
    · simp [uploadCore, h]
    · simp [uploadCore, h]
    · have hn : ¬ 10 ≤ grid.length := by omega
      simp [uploadCore, hn]
  · intro t h
    simp [posterPass, h]
  · intro e h
    simp [posterPass, h]

/-- Claim C2 witness: the gate evaluated on both sides of the
threshold and on both OCR outcomes. -/
theorem upload_gate_witness :
    uploadCore true 4 3 (List.replicate 10 (default : PyEvent))
        (fun _ => Except.ok "t") (fun _ => none) =
      Except.ok (mkSummary 4 3 (List.replicate 10 (default : PyEvent)),
        List.replicate 10 (default : PyEvent)) ∧
    uploadCore false 4 3 [] (fun _ => Except.ok "t") (fun _ => none) =
      posterPass (fun _ => Except.ok "t") (fun _ => none) ∧
    posterPass (fun _ => Except.ok "t") (fun _ => none) =
      Except.ok ("t", extract_events (fun _ => none) "t") ∧
    posterPass (fun _ => (Except.error "e" : Except String String))
        (fun _ => none) =
      Except.error "e" :=
  ⟨(upload_gate true 4 3 (List.replicate 10 (default : PyEvent))
      (fun _ => Except.ok "t") (fun _ => none)).1 rfl (by decide) (by simp),
   (upload_gate false 4 3 [] (fun _ => Except.ok "t")
      (fun _ => none)).2.1 (Or.inl rfl),
   (upload_gate true 4 3 [] (fun _ => Except.ok "t")
      (fun _ => none)).2.2.1 "t" rfl,
   (upload_gate true 4 3 [] (fun _ => (Except.error "e" : Except String String))
      (fun _ => none)).2.2.2 "e" rfl⟩

theorem toDecAux_congr : ∀ f : ℕ, ∀ g n : ℕ, n < f → n < g →
    toDecAux f n = toDecAux g n := by
  intro f
  induction f with
  | zero => intro g n hf; omega
  | succ f ih =>
    intro g n hf hg
    cases g with
    | zero => omega
    | succ g =>
      show (if n < 10 then [digitChar n]
        else toDecAux f (n / 10) ++ [digitChar (n % 10)]) =
        (if n < 10 then [digitChar n]
        else toDecAux g (n / 10) ++ [digitChar (n % 10)])
      by_cases h10 : n < 10
      · simp [h10]
      · simp only [h10, if_neg, not_false_iff]
        rw [ih g (n / 10) (by omega) (by omega)]

theorem toDec_unfold (n : ℕ) : toDec n =
    if n < 10 then [digitChar n]
    else toDec (n / 10) ++ [digitChar (n % 10)] := by
  show toDecAux (n + 1) n = _
  rw [show toDecAux (n + 1) n = if n < 10 then [digitChar n]
    else toDecAux n (n / 10) ++ [digitChar (n % 10)] from rfl]
  by_cases h10 : n < 10
  · simp [h10]
  · simp only [h10, if_neg, not_false_iff]
    rw [toDecAux_congr n (n / 10 + 1) (n / 10) (by omega) (by omega)]
    rfl

theorem toDec_four (y : ℕ) (h1 : 1000 ≤ y) (h2 : y ≤ 9999) :
    toDec y = [digitChar (y / 1000), digitChar (y / 100 % 10),
      digitChar (y / 10 % 10), digitChar (y % 10)] := by
  rw [toDec_unfold y, if_neg (by omega), toDec_unfold (y / 10),
    if_neg (by omega), toDec_unfold (y / 10 / 10), if_neg (by omega),
    toDec_unfold (y / 10 / 10 / 10), if_pos (by omega)]
  have e3 : y / 10 / 10 / 10 = y / 1000 := by omega
  have e2 : y / 10 / 10 % 10 = y / 100 % 10 := by
    have : y / 10 / 10 = y / 100 := by omega
    rw [this]
  rw [e3, e2]
  simp

theorem pad2_digits (n : ℕ) (h : n ≤ 99) :
    pad2 n = [digitChar (n / 10), digitChar (n % 10)] := by
  by_cases h10 : n < 10
  · show (if n < 10 then '0' :: toDec n else toDec n) = _
    rw [if_pos h10, toDec_unfold n, if_pos h10]
    have e1 : n / 10 = 0 := by omega
    have e2 : n % 10 = n := by omega
    rw [e1, e2]
    rfl
  · show (if n < 10 then '0' :: toDec n else toDec n) = _
    rw [if_neg h10, toDec_unfold n, if_neg h10, toDec_unfold (n / 10),
      if_pos (by omega)]
    rfl

theorem isDig_digitChar : ∀ k < 10, isDig (digitChar k) = true := by decide

theorem charVal_digitChar : ∀ k < 10, charVal (digitChar k) = k := by decide

theorem getD_month_list_le (i : ℕ) :
    ([31, 28, 31, 30, 31, 30, 31, 31, 30, 31, 30, 31] : List ℕ).getD i 0
      ≤ 31 := by
  match i with
  | 0 => decide
  | 1 => decide
  | 2 => decide
  | 3 => decide
  | 4 => decide
  | 5 => decide
  | 6 => decide
  | 7 => decide
  | 8 => decide
  | 9 => decide
  | 10 => decide
  | 11 => decide
  | n + 12 => simp [List.getD]

theorem days_in_month_le_31 (m y : ℕ) : days_in_month m y ≤ 31 := by
  unfold days_in_month
  by_cases h2 : m = 2
  · simp only [h2, if_pos]
    split <;> omega
  · simp only [h2, if_neg, not_false_iff]
    exact getD_month_list_le (m - 1)

theorem validDateB_dateStr (y m d : ℕ) (hy1 : 1000 ≤ y) (hy2 : y ≤ 9999)
    (hm1 : 1 ≤ m) (hm2 : m ≤ 12) (hd1 : 1 ≤ d)
    (hd2 : d ≤ days_in_month m y) :
    validDateB (dateStr y m d) = true := by
  have hdle : d ≤ 99 := le_trans hd2 (le_trans (days_in_month_le_31 m y)
    (by omega))
  have hdata : (dateStr y m d).data =
      [digitChar (y / 1000), digitChar (y / 100 % 10),
       digitChar (y / 10 % 10), digitChar (y % 10), '-',
       digitChar (m / 10), digitChar (m % 10), '-',
       digitChar (d / 10), digitChar (d % 10)] := by
    show (toDec y ++ '-' :: pad2 m ++ '-' :: pad2 d) = _
    rw [toDec_four y hy1 hy2, pad2_digits m (by omega), pad2_digits d hdle]
    rfl
  unfold validDateB
  rw [hdata]
  simp only [isDig_digitChar _ (by omega : y / 1000 < 10),
    isDig_digitChar _ (by omega : y / 100 % 10 < 10),
    isDig_digitChar _ (by omega : y / 10 % 10 < 10),
    isDig_digitChar _ (by omega : y % 10 < 10),
    isDig_digitChar _ (by omega : m / 10 < 10),
    isDig_digitChar _ (by omega : m % 10 < 10),
    isDig_digitChar _ (by omega : d / 10 < 10),
    isDig_digitChar _ (by omega : d % 10 < 10),
    charVal_digitChar _ (by omega : y / 1000 < 10),
    charVal_digitChar _ (by omega : y / 100 % 10 < 10),
    charVal_digitChar _ (by omega : y / 10 % 10 < 10),
    charVal_digitChar _ (by omega : y % 10 < 10),
    charVal_digitChar _ (by omega : m / 10 < 10),
    charVal_digitChar _ (by omega : m % 10 < 10),
    charVal_digitChar _ (by omega : d / 10 < 10),
    charVal_digitChar _ (by omega : d % 10 < 10),
    Bool.and_eq_true, decide_eq_true_eq]
  have hmm : 10 * (m / 10) + m % 10 = m := by omega
  have hdd : 10 * (d / 10) + d % 10 = d := by omega
  have hyy : 1000 * (y / 1000) + 100 * (y / 100 % 10) + 10 * (y / 10 % 10) +
      y % 10 = y := by omega
  rw [hmm, hdd, hyy]
  and_intros
  all_goals trivial

theorem collapseGo_space_eq (l : List Char) :
    ∀ (b : Bool), ∀ c ∈ collapseGo b l, pyIsSpace c = true → c = ' ' := by
  induction l with
  | nil => intro b c hc; simp [collapseGo] at hc
  | cons a l ih =>
    intro b c hc hsp
    cases b with
    | false =>
      by_cases ha : pyIsSpace a
      · simp only [collapseGo, ha, if_pos] at hc
        rcases List.mem_cons.mp hc with h | h
        · exact h
        · exact ih true c h hsp
      · simp only [collapseGo, ha, if_neg, not_false_iff] at hc
        rcases List.mem_cons.mp hc with h | h
        · subst h
          exact absurd hsp (by simp [ha])
        · exact ih false c h hsp
    | true =>
      by_cases ha : pyIsSpace a
      · simp only [collapseGo, ha, if_pos] at hc
        exact ih true c hc hsp
      · simp only [collapseGo, ha, if_neg, not_false_iff] at hc
        rcases List.mem_cons.mp hc with h | h
        · subst h
          exact absurd hsp (by simp [ha])
        · exact ih false c h hsp

theorem collapseGo_true_head (l : List Char) :
    collapseGo true l = [] ∨
      ∃ c cs, collapseGo true l = c :: cs ∧ pyIsSpace c = false := by
  induction l with
  | nil => exact Or.inl rfl
  | cons a l ih =>
    by_cases ha : pyIsSpace a
    · simpa [collapseGo, ha] using ih
    · exact Or.inr ⟨a, collapseGo false l, by simp [collapseGo, ha], by
        simpa using ha⟩

theorem collapseGo_no_adjacent_spaces (l : List Char) :
    ∀ b : Bool, List.Chain' (fun a c => ¬(a = ' ' ∧ c = ' '))
      (collapseGo b l) := by
  induction l with
  | nil => intro b; simp [collapseGo]
  | cons a l ih =>
    intro b
    cases b with
    | false =>
      by_cases ha : pyIsSpace a
      · simp only [collapseGo, ha, if_pos]
        rcases collapseGo_true_head l with h | ⟨c, cs, hc, hcs⟩
        · rw [h]
          simp
        · rw [hc]
          refine List.Chain'.cons ?_ (hc ▸ ih true)
          intro hand
          rw [hand.2] at hcs
          simp [pyIsSpace] at hcs
      · simp only [collapseGo, ha, if_neg, not_false_iff]
        cases hcg : collapseGo false l with
        | nil => simp
        | cons c cs =>
          refine List.Chain'.cons ?_ (hcg ▸ ih false)
          intro hand
          rw [hand.1] at ha
          simp [pyIsSpace] at ha
    | true =>
      by_cases ha : pyIsSpace a
      · simp only [collapseGo, ha, if_pos]
        exact ih true
      · simp only [collapseGo, ha, if_neg, not_false_iff]
        cases hcg : collapseGo false l with
        | nil => simp
        | cons c cs =>
          refine List.Chain'.cons ?_ (hcg ▸ ih false)
          intro hand
          rw [hand.1] at ha
          simp [pyIsSpace] at ha

theorem chain'_take {R : Char → Char → Prop} :
    ∀ (l : List Char) (n : ℕ), List.Chain' R l → List.Chain' R (l.take n) := by
  intro l
  induction l with
  | nil => intro n h; simp
  | cons a l ih =>
    intro n h
    cases n with
    | zero => simp
    | succ n =>
      rw [List.take_succ_cons]
      cases l with
      | nil => simp
      | cons b l2 =>
        cases n with
        | zero => simp
        | succ n =>
          rw [List.chain'_cons] at h
          rw [List.take_succ_cons, List.chain'_cons]
          have := ih (n + 1) h.2
          rw [List.take_succ_cons] at this
          exact ⟨h.1, this⟩

theorem dropWhile_head_false {p : Char → Bool} :
    ∀ (l : List Char) (c : Char) (cs : List Char),
      l.dropWhile p = c :: cs → p c = false := by
  intro l
  induction l with
  | nil => intro c cs h; simp [List.dropWhile] at h
  | cons a l ih =>
    intro c cs h
    by_cases ha : p a
    · rw [List.dropWhile_cons, if_pos ha] at h
      exact ih c cs h
    · rw [List.dropWhile_cons, if_neg ha] at h
      obtain ⟨h1, _⟩ := List.cons.inj h
      rw [← h1]
      simpa using ha

theorem pystrip_eq_nil_all (l : List Char) (h : pystrip l = []) :
    ∀ c ∈ l, pyIsSpace c = true := by
  unfold pystrip stripP lstripP rstripP at h
  have hrev : ((l.dropWhile pyIsSpace).reverse.dropWhile pyIsSpace) = [] := by
    have := congrArg List.reverse h
    simpa using this
  have hallrev : ∀ c ∈ (l.dropWhile pyIsSpace).reverse, pyIsSpace c = true :=
    List.dropWhile_eq_nil_iff.mp hrev
  have hall : ∀ c ∈ l.dropWhile pyIsSpace, pyIsSpace c = true := by
    intro c hc
    exact hallrev c (List.mem_reverse.mpr hc)
  have hnil : l.dropWhile pyIsSpace = [] := by
    cases hd : l.dropWhile pyIsSpace with
    | nil => rfl
    | cons c cs =>
      have h1 := dropWhile_head_false l c cs hd
      have h2 := hall c (hd ▸ List.mem_cons_self c cs)
      rw [h1] at h2
      exact absurd h2 (by simp)
  exact List.dropWhile_eq_nil_iff.mp hnil

/-- A title produced by the flush (whitespace collapsed, length at
least 2) does not trim to the empty string. -/
theorem collapse_take_trim_ne (x : List Char) (n : ℕ)
    (hlen : 2 ≤ ((collapseWs x).take n).length) :
    pystrip ((collapseWs x).take n) ≠ [] := by
  intro hnil
  have hall := pystrip_eq_nil_all _ hnil
  have hallsp : ∀ c ∈ (collapseWs x).take n, c = ' ' := by
    intro c hc
    exact collapseGo_space_eq x false c
      (List.mem_of_mem_take hc) (hall c hc)
  have hch : List.Chain' (fun a c => ¬(a = ' ' ∧ c = ' '))
      ((collapseWs x).take n) :=
    chain'_take _ n (collapseGo_no_adjacent_spaces x false)
  have hne : (collapseWs x).take n ≠ [] := by
    intro h0
    rw [h0] at hlen
    simp at hlen
  obtain ⟨a, t1, h1⟩ := List.exists_cons_of_ne_nil hne
  have ht1 : t1 ≠ [] := by
    intro h0
    rw [h1, h0] at hlen
    simp at hlen
  obtain ⟨b, t2, h2⟩ := List.exists_cons_of_ne_nil ht1
  rw [h1, h2] at hch hallsp
  rw [List.chain'_cons] at hch
  exact hch.1 ⟨hallsp a (by simp), hallsp b (by simp)⟩

theorem asString_length (l : List Char) : (l.asString).length = l.length := rfl

theorem asString_data (l : List Char) : (l.asString).data = l := rfl

theorem ifTitle_ne (J : List Char) :
    (if J = [] then ("Eveniment" : String) else J.asString) ≠ "" := by
  split
  · decide
  · rename_i hj
    intro h0
    apply hj
    have h1 := congrArg String.data h0
    simpa [asString_data] using h1

theorem flushEv_some_def (year month d : ℕ) (descs : List (List Char)) :
    flushEv year month (some d) descs =
      (if 6 ≤ ((collapseWs (stripSet flushStrip
          (match histSearch (List.intercalate [' '] descs) with
           | some pr => pr.1
           | none => List.intercalate [' '] descs))).take 140).length then
        some { title := ((collapseWs (stripSet flushStrip
                (match histSearch (List.intercalate [' '] descs) with
                 | some pr => pr.1
                 | none => List.intercalate [' '] descs))).take 140).asString
               date := dateStr year month d
               end_date := ""
               description :=
                 match histSearch (List.intercalate [' '] descs) with
                 | some pr => String.mk ('A' :: 'n' :: ':' :: ' ' :: pr.2)
                 | none => ""
               location := "" }
      else none) := rfl

theorem flushEv_props (year month d : ℕ) (descs : List (List Char))
    (e : PyEvent) (hy1 : 1000 ≤ year) (hy2 : year ≤ 9999)
    (hm1 : 1 ≤ month) (hm2 : month ≤ 12) (hd1 : 1 ≤ d)
    (hd2 : d ≤ days_in_month month year)
    (hf : flushEv year month (some d) descs = some e) :
    validDateB e.date = true ∧ 6 ≤ e.title.length ∧
      e.title.length ≤ 140 ∧ pystrip e.title.data ≠ [] := by
  rw [flushEv_some_def] at hf
  split at hf
  · rename_i h6
    have he := Option.some.inj hf
    rw [← he]
    refine ⟨?_, ?_, ?_, ?_⟩
    · exact validDateB_dateStr year month d hy1 hy2 hm1 hm2 hd1 hd2
    · simpa [asString_length] using h6
    · simp only [asString_length]
      exact List.length_take_le 140 _
    · simp only [asString_data]
      exact collapse_take_trim_ne _ 140 (by omega)
  · exact absurd hf (by simp)

theorem monthStep_def (month year : ℕ) (s : MState) (l : List Char) :
    monthStep month year s l =
      (match dayLineMatch (pystrip l) with
       | some dr =>
         if 1 ≤ dr.1 ∧ dr.1 ≤ days_in_month month year then
           { day := some dr.1
             descs := [pystrip dr.2]
             events := s.events ++ (flushEv year month s.day s.descs).toList }
         else if s.day ≠ none ∧ pystrip l ≠ [] then
           { s with descs := s.descs ++ [pystrip l] }
         else s
       | none =>
         if s.day ≠ none ∧ pystrip l ≠ [] then
           { s with descs := s.descs ++ [pystrip l] }
         else s) := rfl

theorem monthStep_day_some (month year : ℕ) (s : MState) (l : List Char)
    (dr : ℕ × List Char) (hm : dayLineMatch (pystrip l) = some dr) :
    monthStep month year s l =
      if 1 ≤ dr.1 ∧ dr.1 ≤ days_in_month month year then
        { day := some dr.1
          descs := [pystrip dr.2]
          events := s.events ++ (flushEv year month s.day s.descs).toList }
      else if s.day ≠ none ∧ pystrip l ≠ [] then
        { s with descs := s.descs ++ [pystrip l] }
      else s := by
  rw [monthStep_def, hm]

theorem monthStep_day_none (month year : ℕ) (s : MState) (l : List Char)
    (hm : dayLineMatch (pystrip l) = none) :
    monthStep month year s l =
      if s.day ≠ none ∧ pystrip l ≠ [] then
        { s with descs := s.descs ++ [pystrip l] }
      else s := by
  rw [monthStep_def, hm]

theorem monthStep_inv (month year : ℕ) (s : MState) (l : List Char)
    (h1 : ∀ d0, s.day = some d0 → 1 ≤ d0 ∧ d0 ≤ days_in_month month year)
    (h2 : ∀ e ∈ s.events, ∃ d descs, 1 ≤ d ∧ d ≤ days_in_month month year ∧
      flushEv year month (some d) descs = some e) :
    (∀ d0, (monthStep month year s l).day = some d0 →
      1 ≤ d0 ∧ d0 ≤ days_in_month month year) ∧
    (∀ e ∈ (monthStep month year s l).events,
      ∃ d descs, 1 ≤ d ∧ d ≤ days_in_month month year ∧
        flushEv year month (some d) descs = some e) := by
  cases hm : dayLineMatch (pystrip l) with
  | some dr =>
    rw [monthStep_day_some month year s l dr hm]
    by_cases hr : 1 ≤ dr.1 ∧ dr.1 ≤ days_in_month month year
    · rw [if_pos hr]
      constructor
      · intro d0 hd0
        have h0 : dr.1 = d0 := Option.some.inj hd0
        rw [← h0]
        exact hr
      · intro e he
        rcases List.mem_append.mp he with h | h
        · exact h2 e h
        · cases hsd : s.day with
          | none =>
            rw [hsd] at h
            simp [flushEv] at h
          | some d0 =>
            rw [hsd] at h
            have hfe : flushEv year month (some d0) s.descs = some e := by
              cases hfv : flushEv year month (some d0) s.descs with
              | none => rw [hfv] at h; simp at h
              | some ev =>
                rw [hfv] at h
                simp only [Option.toList_some, List.mem_singleton] at h
                simp [h]
            obtain ⟨hb1, hb2⟩ := h1 d0 hsd
            exact ⟨d0, s.descs, hb1, hb2, hfe⟩
    · rw [if_neg hr]
      split
      · exact ⟨h1, h2⟩
      · exact ⟨h1, h2⟩
  | none =>
    rw [monthStep_day_none month year s l hm]
    split
    · exact ⟨h1, h2⟩
    · exact ⟨h1, h2⟩

theorem month_fold_inv (month year : ℕ) (lines : List (List Char)) :
    ∀ s : MState,
    (∀ d0, s.day = some d0 → 1 ≤ d0 ∧ d0 ≤ days_in_month month year) →
    (∀ e ∈ s.events, ∃ d descs, 1 ≤ d ∧ d ≤ days_in_month month year ∧
      flushEv year month (some d) descs = some e) →
    (∀ d0, (lines.foldl (monthStep month year) s).day = some d0 →
      1 ≤ d0 ∧ d0 ≤ days_in_month month year) ∧
    (∀ e ∈ (lines.foldl (monthStep month year) s).events,
      ∃ d descs, 1 ≤ d ∧ d ≤ days_in_month month year ∧
        flushEv year month (some d) descs = some e) := by
  induction lines with
  | nil => intro s h1 h2; exact ⟨h1, h2⟩
  | cons l rest ih =>
    intro s h1 h2
    rw [List.foldl_cons]
    obtain ⟨g1, g2⟩ := monthStep_inv month year s l h1 h2
    exact ih (monthStep month year s l) g1 g2

theorem parse_month_text_shape (month year : ℕ) (text : String) :
    ∀ e ∈ parse_month_text text month year,
      ∃ d descs, 1 ≤ d ∧ d ≤ days_in_month month year ∧
        flushEv year month (some d) descs = some e := by
  intro e he
  unfold parse_month_text at he
  obtain ⟨g1, g2⟩ := month_fold_inv month year (splitlinesPy text.data)
    ⟨none, [], []⟩ (by intro d0 h; simp at h) (by intro e h; simp at h)
  rcases List.mem_append.mp he with h | h
  · exact g2 e h
  · set fin := (splitlinesPy text.data).foldl (monthStep month year)
      (⟨none, [], []⟩ : MState) with hfin
    cases hsd : fin.day with
    | none =>
      rw [hsd] at h
      simp [flushEv] at h
    | some d0 =>
      rw [hsd] at h
      have hfe : flushEv year month (some d0) fin.descs = some e := by
        cases hfv : flushEv year month (some d0) fin.descs with
        | none => rw [hfv] at h; simp at h
        | some ev =>
          rw [hfv] at h
          simp only [Option.toList_some, List.mem_singleton] at h
          simp [h]
      obtain ⟨hb1, hb2⟩ := g1 d0 hsd
      exact ⟨d0, fin.descs, hb1, hb2, hfe⟩

theorem posterEvent_props (oracle : String → Option PDate)
    (horc : ∀ s dt, oracle s = some dt → ValidPDate dt)
    (l : List Char) (next? : Option (List Char)) (e : PyEvent)
    (h : posterEvent oracle l next? = some e) :
    validDateB e.date = true ∧ e.title ≠ "" := by
  cases hs : searchDate l with
  | none =>
    simp only [posterEvent, hs] at h
    exact absurd h (by simp)
  | some r =>
    obtain ⟨before, matched, after⟩ := r
    simp only [posterEvent, hs] at h
    cases ho : oracle matched.asString with
    | none =>
      simp only [ho] at h
      exact absurd h (by simp)
    | some dt =>
      simp only [ho] at h
      have he := Option.some.inj h
      rw [← he]
      obtain ⟨v1, v2, v3, v4, v5, v6⟩ := horc matched.asString dt ho
      exact ⟨validDateB_dateStr dt.y dt.m dt.d v5 v6 v1 v2 v3 v4,
        ifTitle_ne _⟩

theorem extractGo_props (oracle : String → Option PDate)
    (horc : ∀ s dt, oracle s = some dt → ValidPDate dt) :
    ∀ lines : List (List Char), ∀ e ∈ extractGo oracle lines,
      validDateB e.date = true ∧ e.title ≠ "" := by
  intro lines
  induction lines with
  | nil => intro e he; simp [extractGo] at he
  | cons l rest ih =>
    intro e he
    unfold extractGo at he
    rcases List.mem_append.mp he with h | h
    · cases hp : posterEvent oracle l rest.head? with
      | none => rw [hp] at h; simp at h
      | some ev =>
        rw [hp] at h
        simp only [Option.toList_some, List.mem_singleton] at h
        rw [h]
        exact posterEvent_props oracle horc l rest.head? ev hp
    · exact ih e h

set_option maxRecDepth 8000 in
/-- Claim C9 counterexample: the poster path does not truncate titles
to 140 characters — a dated line followed by 150 characters of text
yields an event whose title has length 150 — and a poster title can
even be whitespace-only after trimming (a line whose remainder is a
lone tab yields the title `"\t"`). -/
theorem event_invariant_counterexample :
    ((extract_events
        (fun s => if s = "15.03.2025" then some ⟨2025, 3, 15⟩ else none)
        (String.mk ("15.03.2025 ".data ++ List.replicate 150 'a'))).map
      (fun e => e.title.length)) = [150] ∧
    ¬ (150 : ℕ) ≤ 140 ∧
    ((extract_events
        (fun s => if s = "15.03.2025" then some ⟨2025, 3, 15⟩ else none)
        "–\t–15.03.2025").map (fun e => pystrip e.title.data)) = [[]] := by
  refine ⟨by decide, by decide, by decide⟩

/-- Claim C9 (amended): every event of the grid path (month in 1..12,
4-digit year, as the callers and the year detector guarantee) has a
syntactically valid Gregorian `YYYY-MM-DD` date and a title of 6 to
140 characters that is non-empty after trimming; every event of the
poster path (whose date-parsing capability returns real calendar
dates) has a syntactically valid Gregorian date and a non-empty
title, but the poster title is not truncated to 140 characters and
need not survive trimming (see the counterexample). -/
theorem event_invariants (month year : ℕ) (text : String)
    (oracle : String → Option PDate) (ptext : String)
    (hm1 : 1 ≤ month) (hm2 : month ≤ 12)
    (hy1 : 1000 ≤ year) (hy2 : year ≤ 9999)
    (horc : ∀ s dt, oracle s = some dt → ValidPDate dt) :
    (∀ e ∈ parse_month_text text month year,
      validDateB e.date = true ∧ 6 ≤ e.title.length ∧
      e.title.length ≤ 140 ∧ pystrip e.title.data ≠ []) ∧
    (∀ e ∈ extract_events oracle ptext,
      validDateB e.date = true ∧ e.title ≠ "") := by
  constructor
  · intro e he
    obtain ⟨d, descs, hd1, hd2, hf⟩ := parse_month_text_shape month year text e he
    exact flushEv_props year month d descs e hy1 hy2 hm1 hm2 hd1 hd2 hf
  · intro e he
    exact extractGo_props oracle horc (pyLines ptext) e he

/-- Claim C9 witness: the invariants evaluated on one grid event and
one poster event. -/
theorem event_invariants_witness :
    validDateB "2025-01-05" = true ∧
    6 ≤ ("Eveniment istoric" : String).length ∧
    ("Eveniment istoric" : String).length ≤ 140 ∧
    pystrip ("Eveniment istoric" : String).data ≠ [] ∧
    validDateB "2025-03-15" = true ∧
    ("Ziua Mondială a Apei" : String) ≠ "" := by
  have horc : ∀ s dt,
      (fun s => if s = "15 martie 2025" then some (⟨2025, 3, 15⟩ : PDate)
        else none) s = some dt → ValidPDate dt := by
    intro s dt h
    have h2 : (if s = "15 martie 2025" then some (⟨2025, 3, 15⟩ : PDate)
      else none) = some dt := h
    split at h2
    · rw [← Option.some.inj h2]
      unfold ValidPDate
      decide
    · exact absurd h2 (by simp)
  have h := event_invariants 1 2025 "5 L. Eveniment istoric (1877)"
    (fun s => if s = "15 martie 2025" then some ⟨2025, 3, 15⟩ else none)
    "15 martie 2025 – Ziua Mondială a Apei"
    (by omega) (by omega) (by omega) (by omega) horc
  obtain ⟨g1, g2, g3, g4⟩ := h.1
    { title := "Eveniment istoric", date := "2025-01-05", end_date := "",
      description := "An: 1877", location := "" } (by decide)
  obtain ⟨p1, p2⟩ := h.2
    { title := "Ziua Mondială a Apei", date := "2025-03-15", end_date := "",
      description := "", location := "" } (by decide)
  exact ⟨g1, g2, g3, g4, p1, p2⟩

end SciCal
